import Mathlib

/-!
Verification of the tag-intersection query engine and batch utilities of the
amazon-dynamodb-item-tagging service.

Modelling conventions:
* Task identifiers are abstracted as naturals (`Nat`), ordered as the store
  orders the identifier strings inside the sort keys (the source compares the
  fixed-width identifier strings lexicographically, which is a linear order).
* The DynamoDB store collaborator behind `listIdsFromDbUsingTags` is modelled
  as a pure range query over a fixed posting list: a query with exclusive
  start `s` and page size `count` returns the first `count` identifiers
  strictly greater than `s`, and reports a `LastEvaluatedKey` exactly when
  further identifiers remain.
* JavaScript `undefined` results are modelled with `Option`.
* The `while` loop of `listIds` and the recursion of the batch executor are
  modelled with an explicit fuel parameter; exhausting the fuel corresponds to
  the source not having terminated within that many iterations.
-/

namespace ItemTagging

/-- The per-tag cursor state maintained by `ListService.listIds`:
`page` is `idsForTags[tagIndex]` (the page of identifiers currently held in
memory), `key` is the pagination key `resultsForTags[tagIndex][1]` (only its
`id` component matters to the algorithm), and `ptr` is
`listPointers[tagIndex]`. -/
structure TagState where
  page : List Nat
  key : Option Nat
  ptr : Nat
deriving Repr, DecidableEq

/-- The identifiers of posting list `L` that lie strictly after the exclusive
start key `start` — the portion of the posting list a query range starting at
`start` can still see. -/
def startAfter (start : Option Nat) (L : List Nat) : List Nat :=
  match start with
  | none => L
  | some s => L.filter (fun x => decide (s < x))

namespace ListService

/-- Model of `ListService.listIdsFromDbUsingTags` (list.ts:166-211), specialised to the
posting list `L` held by the store for the queried `(tagName, tagValue)` pair.
`ExclusiveStartKey` is built only when `exclusiveStart?.id` is present; the
query returns the first `count` identifiers strictly after it.  When
`results.Count == 0` the source returns `[undefined, undefined]`, otherwise the
page of identifiers plus a pagination key holding the last returned identifier
whenever the store reports a `LastEvaluatedKey` (i.e. more rows remain). -/
def listIdsFromDbUsingTags (L : List Nat) (start : Option Nat) (count : Nat) :
    Option (List Nat) × Option Nat :=
  let remaining := startAfter start L
  let page := remaining.take count
  if page.isEmpty then (none, none)
  else (some page, if count < remaining.length then page.getLast? else none)

/-- The inline closure `getNextPageOfResults` of `listIds` (list.ts:79-95): if
the tag's pagination key is absent there is nothing more to fetch; otherwise a
fresh page is queried.  On an empty answer the stored result becomes
`[undefined, undefined]` (so the key component is cleared) while the in-memory
page and pointer are left alone; on a non-empty answer the page is replaced and
the pointer reset. -/
def getNextPageOfResults (L : List Nat) (count : Nat) (ts : TagState) :
    TagState × Bool :=
  match ts.key with
  | none => (ts, false)
  | some k =>
    match listIdsFromDbUsingTags L (some k) count with
    | (none, k') => ({ ts with key := k' }, false)
    | (some page, k') => ({ page := page, key := k', ptr := 0 }, true)

/-- The inline closure `getNextItemIdFromResults` of `listIds`
(list.ts:98-107): read the identifier under the pointer, transparently
refilling the page when the pointer has walked off its end. -/
def getNextItemIdFromResults (L : List Nat) (count : Nat) (ts : TagState) :
    Option Nat × TagState :=
  match ts.page[ts.ptr]? with
  | some v => (some v, ts)
  | none =>
    let r := getNextPageOfResults L count ts
    if r.2 then (r.1.page[r.1.ptr]?, r.1) else (none, r.1)

/-- Step `listPointers[index]++` for a single tag. -/
def bumpPtr {n : Nat} (st : Fin n → TagState) (i : Fin n) : Fin n → TagState :=
  Function.update st i { st i with ptr := (st i).ptr + 1 }

/-- Step `listPointers.forEach((_value, index) => listPointers[index]++)`: advance
every tag's pointer after a match (list.ts:127). -/
def bumpAllPtr {n : Nat} (st : Fin n → TagState) : Fin n → TagState :=
  fun j => { st j with ptr := (st j).ptr + 1 }

/-- One pass of the `for (tagIndex...)` loop of `listIds` (list.ts:115-151),
started at index `i`.  Returns the updated per-tag states, the updated
`matchedItemIds` and the value of `keepGoing` afterwards.  `continue` on a
cross-tag equality is the recursive call at `i + 1`; the three `break`s return
directly; falling off the end of the range (which in the source happens right
after a match is recorded) leaves `keepGoing` untouched (`true`).  The `gas`
argument only makes the recursion structural: callers pass `gas = n` so that
it never reaches `0` before `i` reaches `n`. -/
def innerLoop {n : Nat} (L : Fin n → List Nat) (count : Nat) :
    Nat → Nat → (Fin n → TagState) → List Nat →
    (Fin n → TagState) × List Nat × Bool
  | 0, _, st, matched => (st, matched, true)
  | gas + 1, i, st, matched =>
    if hi : i < n then
      let r := getNextItemIdFromResults (L ⟨i, hi⟩) count (st ⟨i, hi⟩)
      let st1 := Function.update st ⟨i, hi⟩ r.2
      match r.1 with
      | none => (st1, matched, false)
      | some cur =>
        if hl : i = n - 1 then
          (bumpAllPtr st1, matched ++ [cur], true)
        else
          have hj : i + 1 < n := by omega
          let r2 := getNextItemIdFromResults (L ⟨i + 1, hj⟩) count (st1 ⟨i + 1, hj⟩)
          let st2 := Function.update st1 ⟨i + 1, hj⟩ r2.2
          match r2.1 with
          | none => (st2, matched, false)
          | some next =>
            if cur = next then innerLoop L count gas (i + 1) st2 matched
            else if cur < next then (bumpPtr st2 ⟨i, hi⟩, matched, true)
            else (bumpPtr st2 ⟨i + 1, hj⟩, matched, true)
    else (st, matched, true)

/-- The `while (keepGoing && matchedItemIds.length < count)` loop of `listIds`
(list.ts:113-152), with one unit of fuel per iteration.  `none` means the fuel
ran out before the loop finished. -/
def mainLoop {n : Nat} (L : Fin n → List Nat) (count : Nat) :
    Nat → (Fin n → TagState) → List Nat → Option (List Nat)
  | 0, _, _ => none
  | fuel + 1, st, matched =>
    if matched.length < count then
      match innerLoop L count n 0 st matched with
      | (st', matched', true) => mainLoop L count fuel st' matched'
      | (_, matched', false) => some matched'
    else some matched

/-- Model of `ListService.listIds` (list.ts:47-164) for `n` tags whose posting lists are
`L 0, ..., L (n-1)` (in the iteration order of the tags map), continuation key
`c` (the `id` component of the caller's pagination key) and page size `count`.
First pages are fetched for every tag; if any of them is empty the source
returns `[undefined, undefined]`.  Otherwise the merge loop runs; the fuel
`(sum of posting-list lengths) + 1` is proved sufficient below.  The final
`nextToken` is present exactly when `matchedItemIds.length === count`, holding
`matchedItemIds[count - 1]`. -/
def listIds (n : Nat) (L : Fin n → List Nat) (c : Option Nat) (count : Nat) :
    Option (Option (List Nat) × Option Nat) :=
  let firsts : Fin n → Option (List Nat) × Option Nat :=
    fun i => listIdsFromDbUsingTags (L i) c count
  if (List.finRange n).any (fun i => ((firsts i).1.getD []).isEmpty) then
    some (none, none)
  else
    let st0 : Fin n → TagState :=
      fun i => { page := (firsts i).1.getD [], key := (firsts i).2, ptr := 0 }
    let fuel := ((List.finRange n).map (fun i => (L i).length)).sum + 1
    match mainLoop L count fuel st0 [] with
    | none => none
    | some matched =>
      some (some matched,
        if matched.length = count then matched[count - 1]? else none)

/-- Repeatedly call `listIds` with page size `k`, feeding every returned
continuation key (its `id` component) back in as the next call's pagination
key, and concatenate the pages of matched identifiers.  `rounds` bounds the
number of calls; an absent continuation key stops the iteration. -/
def paginateIds (n : Nat) (L : Fin n → List Nat) (k : Nat) :
    Nat → Option Nat → List Nat
  | 0, _ => []
  | rounds + 1, c =>
    match listIds n L c k with
    | none => []
    | some (ids?, key?) =>
      match key? with
      | none => ids?.getD []
      | some x => ids?.getD [] ++ paginateIds n L k rounds (some x)

/-! ### Abstract view of the merge loop

The cursor machinery of `listIds` is related below (by simulation) to an
abstract machine that keeps, for every tag, just the index of the next
position inside the stream of identifiers the cursor can still produce.  The
abstract inner and outer loops mirror `innerLoop` and `mainLoop` verbatim,
with the paged cursor `TagState` replaced by a plain position. -/

/-- Abstract counterpart of `innerLoop`: `p j` is the position of tag `j`'s
cursor inside its full identifier stream `S j`. -/
def innerAbs {n : Nat} (S : Fin n → List Nat) :
    Nat → Nat → (Fin n → Nat) → List Nat → (Fin n → Nat) × List Nat × Bool
  | 0, _, p, matched => (p, matched, true)
  | gas + 1, i, p, matched =>
    if hi : i < n then
      match (S ⟨i, hi⟩)[p ⟨i, hi⟩]? with
      | none => (p, matched, false)
      | some cur =>
        if hl : i = n - 1 then
          (fun j => p j + 1, matched ++ [cur], true)
        else
          have hj : i + 1 < n := by omega
          match (S ⟨i + 1, hj⟩)[p ⟨i + 1, hj⟩]? with
          | none => (p, matched, false)
          | some next =>
            if cur = next then innerAbs S gas (i + 1) p matched
            else if cur < next then
              (Function.update p ⟨i, hi⟩ (p ⟨i, hi⟩ + 1), matched, true)
            else
              (Function.update p ⟨i + 1, hj⟩ (p ⟨i + 1, hj⟩ + 1), matched, true)
    else (p, matched, true)

/-- Abstract counterpart of `mainLoop`. -/
def mainAbs {n : Nat} (S : Fin n → List Nat) (count : Nat) :
    Nat → (Fin n → Nat) → List Nat → Option (List Nat)
  | 0, _, _ => none
  | fuel + 1, p, matched =>
    if matched.length < count then
      match innerAbs S n 0 p matched with
      | (p', matched', true) => mainAbs S count fuel p' matched'
      | (_, matched', false) => some matched'
    else some matched

/-- The refinement relation between a concrete cursor `ts` over identifier
stream `S` (page size `count`) and an abstract position `pos`: the in-memory
page is a `count`-sized window of `S` starting at some offset `off`, the
pointer is the position relative to that window (possibly one past its end),
and the pagination key holds the identifier under the window's last slot
exactly when the stream extends beyond the window. -/
def TagRel (S : List Nat) (count : Nat) (ts : TagState) (pos : Nat) : Prop :=
  ∃ off, off ≤ S.length ∧ off ≤ pos ∧ pos ≤ off + ts.page.length ∧
    ts.page = (S.drop off).take count ∧ ts.ptr = pos - off ∧
    ts.key = (if off + count < S.length then S[off + count - 1]? else none)

/-- The sorted intersection of the identifier streams `S 0, ..., S (n-1)`,
as a list: the identifiers of `S 0` present in every stream. -/
def interAll {n : Nat} (S : Fin n → List Nat) : List Nat :=
  match n, S with
  | 0, _ => []
  | m + 1, S =>
    (S ⟨0, Nat.succ_pos m⟩).filter (fun x => decide (∀ j, x ∈ S j))

/-- Loop invariant of the abstract merge at the head of the `while` loop:
`matched` is strictly ascending; its entries lie in every stream; every stream
entry a cursor has passed that belongs to the intersection has already been
matched; every matched entry lies strictly behind every cursor; and no cursor
has run past the end of its stream. -/
def GInv {n : Nat} (S : Fin n → List Nat) (p : Fin n → Nat)
    (matched : List Nat) : Prop :=
  matched.Sorted (· < ·) ∧
  (∀ x ∈ matched, ∀ j, x ∈ S j) ∧
  (∀ (j : Fin n) (k : Nat), k < p j → ∀ x, (S j)[k]? = some x →
    (∀ i, x ∈ S i) → x ∈ matched) ∧
  (∀ x ∈ matched, ∀ j, ∃ k, k < p j ∧ (S j)[k]? = some x) ∧
  (∀ j, p j ≤ (S j).length)

end ListService

/-!
### Batch executor (`DynamoDbUtils`, dynamoDb.util.ts)

The request maps (`RequestItems`) of `BatchWriteItemInput`/`BatchGetItemInput`
are modelled as association lists from table name to list of items/keys, the
item and key payloads being abstract (`α`).  The `{ Keys: [...] }` wrapper of
the get request is elided: only the key lists it carries matter.  JavaScript
property access on `undefined` (a `TypeError`) and objects that simply lack a
property are distinguished via the result types below.
-/

namespace DynamoDbUtils

def MAX_RETRIES : Nat := 3

def DEFAULT_MAX_WRITE_BATCH_SIZE : Nat := 25

def DEFAULT_MAX_GET_BATCH_SIZE : Nat := 100

/-- A `RequestItems` map: table name to list of write requests / keys. -/
abbrev ReqMap (α : Type) := List (String × List α)

/-- A `BatchWriteItemInput` / `BatchGetItemInput`. -/
structure BatchInput (α : Type) where
  RequestItems : ReqMap α
deriving Repr, DecidableEq

/-- JavaScript `obj[k] = v` on an object modelled as an association list:
overwrite the value if the key is present, otherwise append the key. -/
def setKey {α : Type} (m : List (String × α)) (k : String) (v : α) :
    List (String × α) :=
  if m.any (fun kv => kv.1 = k) then
    m.map (fun kv => if kv.1 = k then (kv.1, v) else kv)
  else m ++ [(k, v)]

/-- Model of `obj[k].push(item)` for a map of lists (the key is present at every use
site in the source). -/
def pushAt {α : Type} (m : ReqMap α) (k : String) (a : α) : ReqMap α :=
  m.map (fun kv => if kv.1 = k then (kv.1, kv.2 ++ [a]) else kv)

/-- Append a whole list at key `k`, creating the key first when absent —
the `if (map[table] === undefined) map[table] = []; map[table].push(...)`
pattern of `joinChunksIntoOutputBatchWrite` and `mergeBatchGetOutput`. -/
def appendAt {α : Type} (m : ReqMap α) (k : String) (items : List α) :
    ReqMap α :=
  if m.any (fun kv => kv.1 = k) then
    m.map (fun kv => if kv.1 = k then (kv.1, kv.2 ++ items) else kv)
  else m ++ [(k, items)]

/-- Model of `newBatchWriteItemInput` / `newBatchGetItemInput`
(dynamoDb.util.ts:206-227): a fresh request holding one empty collection when
a table name is supplied. -/
def newBatchItemInput {α : Type} (table : Option String) : BatchInput α :=
  match table with
  | none => ⟨[]⟩
  | some t => ⟨[(t, [])]⟩

/-- The inner `forEach(item => ...)` body shared by both chunk splitters
(dynamoDb.util.ts:98-108 and 139-149): roll the current chunk over when it is
full, then push the item into the current chunk under `table`. -/
def chunkStep {α : Type} (maxB : Nat) (table : String)
    (acc : List (BatchInput α) × BatchInput α × Nat) (item : α) :
    List (BatchInput α) × BatchInput α × Nat :=
  let rolled :=
    if acc.2.2 ≥ maxB then (acc.1 ++ [acc.2.1], newBatchItemInput (some table), 0)
    else acc
  (rolled.1, ⟨pushAt rolled.2.1.RequestItems table item⟩, rolled.2.2 + 1)

/-- The outer `Object.keys(batch.RequestItems).forEach(table => ...)` body of
both chunk splitters: open the table's slot in the running chunk (creating the
chunk on the first table) and fold the inner step over the table's items. -/
def chunkTableStep {α : Type} (maxB : Nat)
    (acc : List (BatchInput α) × Option (BatchInput α) × Nat)
    (kv : String × List α) :
    List (BatchInput α) × Option (BatchInput α) × Nat :=
  let chunk0 : BatchInput α :=
    match acc.2.1 with
    | none => newBatchItemInput (some kv.1)
    | some ch => ⟨setKey ch.RequestItems kv.1 []⟩
  let r := kv.2.foldl (chunkStep maxB kv.1) (acc.1, chunk0, acc.2.2)
  (r.1, some r.2.1, r.2.2)

/-- Model of `DynamoDbUtils.splitBatchWriteIntoChunks` (dynamoDb.util.ts:78-117): split
a bulk-write request into chunks of at most `maxBatchSize` items (default
`DEFAULT_MAX_WRITE_BATCH_SIZE = 25`), returning the request unchanged when it
already fits. -/
def splitBatchWriteIntoChunks {α : Type} (batch : BatchInput α)
    (maxBatchSize : Option Nat) : List (BatchInput α) :=
  let maxB := maxBatchSize.getD DEFAULT_MAX_WRITE_BATCH_SIZE
  let itemCount := (batch.RequestItems.map (fun kv => kv.2.length)).sum
  if itemCount > maxB then
    let final := batch.RequestItems.foldl (chunkTableStep maxB) ([], none, 0)
    final.1 ++ [final.2.1.getD (newBatchItemInput none)]
  else [batch]

/-- Model of `DynamoDbUtils.splitBatchGetIntoChunks` (dynamoDb.util.ts:119-158):
identical shape with the read ceiling `DEFAULT_MAX_GET_BATCH_SIZE = 100`. -/
def splitBatchGetIntoChunks {α : Type} (batch : BatchInput α)
    (maxBatchSize : Option Nat) : List (BatchInput α) :=
  let maxB := maxBatchSize.getD DEFAULT_MAX_GET_BATCH_SIZE
  let itemCount := (batch.RequestItems.map (fun kv => kv.2.length)).sum
  if itemCount > maxB then
    let final := batch.RequestItems.foldl (chunkTableStep maxB) ([], none, 0)
    final.1 ++ [final.2.1.getD (newBatchItemInput none)]
  else [batch]

/-- Model of `DynamoDbUtils.joinChunksIntoOutputBatchWrite` (dynamoDb.util.ts:164-176):
append every remaining chunk's items to the unprocessed map, per table. -/
def joinChunksIntoOutputBatchWrite {α : Type} (unprocessed : ReqMap α)
    (remaining : List (BatchInput α)) : ReqMap α :=
  remaining.foldl
    (fun acc chunk =>
      chunk.RequestItems.foldl (fun a kv => appendAt a kv.1 kv.2) acc)
    unprocessed

/-- The JavaScript value returned by `batchWriteAll`: `undefined` on success,
the raw `params.RequestItems` map (an object without an `UnprocessedItems`
property) once `attempt > MAX_RETRIES`, or a `BatchWriteItemOutput` carrying
`UnprocessedItems`. -/
inductive BWRet (α : Type) where
  | undef
  | rawMap (m : ReqMap α)
  | output (unprocessed : ReqMap α)
deriving Repr, DecidableEq

/-- Outcome of running `batchWriteAll` with bounded fuel: `fuelOut calls`
means the recursion was still running after making `calls` store calls,
`thrown` models an uncaught `TypeError`, `returned` a normal return.  The
`calls` component counts `dc.batchWrite` invocations. -/
inductive BWOutcome (α : Type) where
  | fuelOut (calls : Nat)
  | thrown (calls : Nat)
  | returned (ret : BWRet α) (calls : Nat)
deriving Repr, DecidableEq

/-- Model of `DynamoDbUtils.hasUnprocessedItems` (dynamoDb.util.ts:17-20):
`result !== undefined && result.UnprocessedItems !== undefined`. -/
def hasUnprocessedItems {α : Type} : BWRet α → Bool
  | .undef => false
  | .rawMap _ => false
  | .output _ => true

/-- The `while (chunks.length)` loop of `batchWriteAll`
(dynamoDb.util.ts:32-45).  `store k chunk` is the `UnprocessedItems` field of
the response to the `k`-th `dc.batchWrite` call (`none` when the field is
absent).  `retry` is the recursive `batchWriteAll` call at one fuel less;
`attempt++` passes the current attempt value and only then increments the
local variable, which is faithfully rendered by calling `retry m attempt` and
continuing the loop with `attempt + 1`.  Reading `.UnprocessedItems` off an
`undefined` retry result raises a `TypeError`. -/
def bwChunks {α : Type} (store : Nat → BatchInput α → Option (ReqMap α))
    (retry : ReqMap α → Nat → Nat → BWOutcome α) :
    List (BatchInput α) → Nat → Nat → BWOutcome α
  | [], _, calls => .returned .undef calls
  | chunk :: rest, attempt, calls =>
    match store calls chunk with
    | some m =>
      if m.length > 0 then
        match retry m attempt (calls + 1) with
        | .fuelOut c => .fuelOut c
        | .thrown c => .thrown c
        | .returned .undef c => .thrown c
        | .returned (.rawMap _) c => bwChunks store retry rest (attempt + 1) c
        | .returned (.output u) c =>
          if u.length > 0 then
            .returned (.output (joinChunksIntoOutputBatchWrite u rest)) c
          else bwChunks store retry rest (attempt + 1) c
      else bwChunks store retry rest attempt (calls + 1)
    | none => bwChunks store retry rest attempt (calls + 1)

/-- Model of `DynamoDbUtils.batchWriteAll` (dynamoDb.util.ts:22-49), with fuel bounding
the recursion depth.  When `attempt > MAX_RETRIES` the source returns
`params.RequestItems` — the raw request map, which has no `UnprocessedItems`
property. -/
def batchWriteAll {α : Type} (store : Nat → BatchInput α → Option (ReqMap α)) :
    Nat → ReqMap α → Nat → Nat → BWOutcome α
  | 0, _, _, calls => .fuelOut calls
  | fuel + 1, requestItems, attempt, calls =>
    if attempt > MAX_RETRIES then .returned (.rawMap requestItems) calls
    else
      bwChunks store (batchWriteAll store fuel)
        (splitBatchWriteIntoChunks ⟨requestItems⟩ none) attempt calls

/-- The JavaScript value returned by `batchGetAll`: a response object (always
carrying a `Responses` map), or the raw `params.RequestItems` map (which has
no `Responses` property) once `attempt > MAX_RETRIES`.  `α` is the key
payload, `β` the item payload of responses. -/
inductive BGRet (α β : Type) where
  | resp (responses : List (String × List β))
  | rawMap (m : ReqMap α)
deriving Repr, DecidableEq

/-- Outcome of running `batchGetAll` with bounded fuel. -/
inductive BGOutcome (α β : Type) where
  | fuelOut (calls : Nat)
  | returned (ret : BGRet α β) (calls : Nat)
deriving Repr, DecidableEq

/-- The `Responses` half of `DynamoDbUtils.mergeBatchGetOutput`
(dynamoDb.util.ts:178-200) — every call site passes `{ Responses: ... }`
objects, so the `UnprocessedKeys` half is never exercised. -/
def mergeResponses {β : Type} (acc toMerge : List (String × List β)) :
    List (String × List β) :=
  toMerge.foldl (fun a kv => appendAt a kv.1 kv.2) acc

/-- The `while (chunks.length)` loop of `batchGetAll`
(dynamoDb.util.ts:62-73).  `store k chunk` returns the `(Responses,
UnprocessedKeys)` of the `k`-th `dc.batchGet` call.  A raw-map retry result
has `Responses === undefined`, so `mergeBatchGetOutput` skips it. -/
def bgChunks {α β : Type}
    (store : Nat → BatchInput α → List (String × List β) × Option (ReqMap α))
    (retry : ReqMap α → Nat → Nat → BGOutcome α β) :
    List (BatchInput α) → List (String × List β) → Nat → Nat → BGOutcome α β
  | [], resp, _, calls => .returned (.resp resp) calls
  | chunk :: rest, resp, attempt, calls =>
    let r := store calls chunk
    let resp1 := mergeResponses resp r.1
    match r.2 with
    | some u =>
      if u.length > 0 then
        match retry u attempt (calls + 1) with
        | .fuelOut c => .fuelOut c
        | .returned ret c =>
          let resp2 :=
            match ret with
            | .resp rr => mergeResponses resp1 rr
            | .rawMap _ => resp1
          bgChunks store retry rest resp2 (attempt + 1) c
      else bgChunks store retry rest resp1 attempt (calls + 1)
    | none => bgChunks store retry rest resp1 attempt (calls + 1)

/-- Model of `DynamoDbUtils.batchGetAll` (dynamoDb.util.ts:51-76), with fuel bounding
the recursion depth. -/
def batchGetAll {α β : Type}
    (store : Nat → BatchInput α → List (String × List β) × Option (ReqMap α)) :
    Nat → ReqMap α → Nat → Nat → BGOutcome α β
  | 0, _, _, calls => .fuelOut calls
  | fuel + 1, requestItems, attempt, calls =>
    if attempt > MAX_RETRIES then .returned (.rawMap requestItems) calls
    else
      bgChunks store (batchGetAll store fuel)
        (splitBatchGetIntoChunks ⟨requestItems⟩ none) [] attempt calls

end DynamoDbUtils

/-!
### Create path (`CreateService`, create.ts)
-/

namespace CreateService

/-- The `TaskItem` model (models.ts): `id` and `tags` are optional. -/
structure TaskItem where
  id : Option String
  name : String
  description : String
  tags : Option (List (String × String))
deriving Repr, DecidableEq

/-- A DynamoDB item as written by `CreateService.saveToDb`: the task item
carries `siKey1`, `name`, `description` and `tags`; a tag item carries only
its keys. -/
structure DbItem where
  pk : String
  sk : String
  siKey1 : Option String
  name : Option String
  description : Option String
  tags : Option (List (String × String))
deriving Repr, DecidableEq

/-- The `BatchWriteItemInput` constructed by `CreateService.saveToDb`
(create.ts:52-90): the task item under key `task#<id>` followed by one tag
item per tag under partition key `tag#<tagName>` and sort key
`<tagValue>#task#<id>`.  (When `item.id` is absent a JavaScript template
literal would interpolate the string `undefined`; `process` always assigns the
id first.) -/
def saveToDbParams (tableName : String) (item : TaskItem) :
    DynamoDbUtils.BatchInput DbItem :=
  let idStr := item.id.getD "undefined"
  let taskDbItem : DbItem :=
    { pk := "task#" ++ idStr, sk := "task#" ++ idStr,
      siKey1 := some "task", name := some item.name,
      description := some item.description, tags := item.tags }
  let tagDbItems : List DbItem :=
    (item.tags.getD []).map fun tv =>
      { pk := "tag#" ++ tv.1, sk := tv.2 ++ "#task#" ++ idStr,
        siKey1 := none, name := none, description := none, tags := none }
  ⟨[(tableName, taskDbItem :: tagDbItems)]⟩

/-- Outcome of `CreateService.saveToDb` (create.ts:49-97): `saveFailed` is the
`throw new Error(SAVE_FAILED)` raised when `hasUnprocessedItems` holds of
the `batchWriteAll` result; `typeErr` and `diverged` surface the batch
executor's abnormal outcomes. -/
inductive SaveOutcome where
  | ok
  | saveFailed
  | typeErr
  | diverged
deriving Repr, DecidableEq

/-- Model of `CreateService.saveToDb` (create.ts:49-97). -/
def saveToDb (store : Nat → DynamoDbUtils.BatchInput DbItem →
      Option (DynamoDbUtils.ReqMap DbItem))
    (fuel : Nat) (tableName : String) (item : TaskItem) : SaveOutcome :=
  match DynamoDbUtils.batchWriteAll store fuel
      (saveToDbParams tableName item).RequestItems 1 0 with
  | .fuelOut _ => .diverged
  | .thrown _ => .typeErr
  | .returned r _ =>
    if DynamoDbUtils.hasUnprocessedItems r then .saveFailed else .ok

/-- Outcome of `CreateService.process` (create.ts:30-43). -/
inductive ProcessResult where
  | validationErr
  | success (item : TaskItem)
  | saveFailed
  | typeErr
  | diverged
deriving Repr, DecidableEq

/-- Model of `CreateService.process` (create.ts:30-43): validate that the name is
non-empty, overwrite `item.id` with a freshly generated identifier `genId`
(the `ShortUniqueId` generator is abstracted by its output), save, and return
the saved item. -/
def process (genId : String)
    (store : Nat → DynamoDbUtils.BatchInput DbItem →
      Option (DynamoDbUtils.ReqMap DbItem))
    (fuel : Nat) (tableName : String) (item : TaskItem) : ProcessResult :=
  if item.name = "" then .validationErr
  else
    let item' := { item with id := some genId }
    match saveToDb store fuel tableName item' with
    | .ok => .success item'
    | .saveFailed => .saveFailed
    | .typeErr => .typeErr
    | .diverged => .diverged

/-- The dictionary configured for the `ShortUniqueId` generator in the
`CreateService` constructor (create.ts:24-27): `alphanum_lower`. -/
def alphanumLowerChars : List Char :=
  "0123456789abcdefghijklmnopqrstuvwxyz".toList

/-- The contract of the configured identifier generator
(a `ShortUniqueId` with dictionary `alphanum_lower` and length 9): a 9-character
string over the lowercase-alphanumeric dictionary. -/
def validGeneratedId (s : String) : Prop :=
  s.length = 9 ∧ ∀ c ∈ s.toList, c ∈ alphanumLowerChars

instance (s : String) : Decidable (validGeneratedId s) := by
  unfold validGeneratedId; infer_instance

end CreateService

/-! ## Theorems

### Generic facts about sorted lists of identifiers -/

theorem sorted_getElem_lt {l : List Nat} (h : l.Sorted (· < ·)) {i j : Nat}
    (hi : i < l.length) (hj : j < l.length) (hij : i < j) : l[i] < l[j] :=
  List.pairwise_iff_getElem.mp h i j hi hj hij

/-- In a strictly ascending list, filtering for the identifiers strictly
greater than the one at index `m` drops exactly the first `m + 1` entries. -/
theorem filter_gt_getElem_eq_drop {l : List Nat} (h : l.Sorted (· < ·)) :
    ∀ (m : Nat) (hm : m < l.length),
      l.filter (fun x => decide (l[m] < x)) = l.drop (m + 1) := by
  induction l with
  | nil => intro m hm; simp at hm
  | cons a t ih =>
    have hhead : ∀ b ∈ t, a < b := (List.sorted_cons.mp h).1
    have ht : t.Sorted (· < ·) := (List.sorted_cons.mp h).2
    intro m hm
    match m with
    | 0 =>
      simp only [List.getElem_cons_zero, List.drop_succ_cons, List.drop_zero]
      have h0 : List.filter (fun x => decide (a < x)) (a :: t) =
          List.filter (fun x => decide (a < x)) t := by
        rw [List.filter_cons]
        simp
      rw [h0]
      exact List.filter_eq_self.mpr (fun b hb => decide_eq_true (hhead b hb))
    | m + 1 =>
      have hm' : m < t.length := by simpa using hm
      simp only [List.getElem_cons_succ, List.drop_succ_cons]
      have hna : ¬ (t[m] < a) := not_lt_of_gt (hhead _ (t.getElem_mem hm'))
      have h0 : List.filter (fun x => decide (t[m] < x)) (a :: t) =
          List.filter (fun x => decide (t[m] < x)) t := by
        rw [List.filter_cons]
        simp [hna]
      rw [h0]
      exact ih ht m hm'

/-- Restarting a range strictly after `k` commutes with a previous exclusive
start `c`, provided `k` lies past `c`. -/
theorem startAfter_startAfter {L : List Nat} {c : Option Nat} {k : Nat}
    (hk : ∀ s, c = some s → s < k) :
    startAfter (some k) L = (startAfter c L).filter (fun x => decide (k < x)) := by
  match c with
  | none => rfl
  | some s =>
    simp only [startAfter, List.filter_filter]
    refine (List.filter_congr fun x _ => ?_).symm
    by_cases hkx : k < x
    · have hsx : s < x := lt_trans (hk s rfl) hkx
      simp [hkx, hsx]
    · simp [hkx]

theorem startAfter_sorted {L : List Nat} (h : L.Sorted (· < ·)) (c : Option Nat) :
    (startAfter c L).Sorted (· < ·) := by
  match c with
  | none => exact h
  | some s => exact h.filter _

theorem startAfter_length_le (c : Option Nat) (L : List Nat) :
    (startAfter c L).length ≤ L.length := by
  match c with
  | none => exact le_refl _
  | some s => exact List.length_filter_le _ _

theorem mem_startAfter {L : List Nat} {c : Option Nat} {x : Nat} :
    x ∈ startAfter c L ↔ x ∈ L ∧ ∀ s, c = some s → s < x := by
  match c with
  | none => simp [startAfter]
  | some s => simp [startAfter, List.mem_filter]

/-- The last entry of the `count`-sized window of `S` at offset `off` is the
entry of `S` at index `off + count - 1`. -/
theorem getLast?_take_drop {S : List Nat} {off count : Nat} (hc : 1 ≤ count)
    (hlen : off + count ≤ S.length) :
    ((S.drop off).take count).getLast? = S[off + count - 1]? := by
  have hlen' : ((S.drop off).take count).length = count := by
    simp only [List.length_take, List.length_drop]
    omega
  rw [List.getLast?_eq_getElem?, hlen', List.getElem?_take,
    if_pos (by omega : count - 1 < count), List.getElem?_drop]
  congr 1
  omega

namespace ListService

/-! ### Simulation of the paged cursor by a stream position -/

theorem tagRel_intro {S : List Nat} {count : Nat} {page : List Nat}
    {key : Option Nat} {ptr pos : Nat} (off : Nat) (h1 : off ≤ S.length)
    (h2 : off ≤ pos) (h3 : pos ≤ off + page.length)
    (h4 : page = (S.drop off).take count) (h5 : ptr = pos - off)
    (h6 : key = (if off + count < S.length then S[off + count - 1]? else none)) :
    TagRel S count ⟨page, key, ptr⟩ pos :=
  ⟨off, h1, h2, h3, h4, h5, h6⟩

theorem TagRel.bump {S : List Nat} {count : Nat} {ts : TagState} {pos : Nat}
    (h : TagRel S count ts pos) (hin : ts.ptr < ts.page.length) :
    TagRel S count { ts with ptr := ts.ptr + 1 } (pos + 1) := by
  obtain ⟨off, h1, h2, h3, h4, h5, h6⟩ := h
  exact ⟨off, h1, by omega, by simp; omega, h4, by simp; omega, h6⟩

/-- One `getNextItemIdFromResults` call, viewed through `TagRel`: it returns
the stream entry at the abstract position, preserves the relation, and leaves
the pointer strictly inside the page whenever it produced an identifier. -/
theorem getNext_sim {L : List Nat} (hL : L.Sorted (· < ·)) {c : Option Nat}
    {count : Nat} (hcount : 1 ≤ count) {ts : TagState} {pos : Nat}
    (h : TagRel (startAfter c L) count ts pos) :
    (getNextItemIdFromResults L count ts).1 = (startAfter c L)[pos]? ∧
      TagRel (startAfter c L) count (getNextItemIdFromResults L count ts).2 pos ∧
      ((startAfter c L)[pos]?.isSome = true →
        (getNextItemIdFromResults L count ts).2.ptr <
          (getNextItemIdFromResults L count ts).2.page.length) := by
  set S := startAfter c L with hSdef
  have hSsort : S.Sorted (· < ·) := startAfter_sorted hL c
  obtain ⟨off, hoffS, hoffpos, hposbound, hpage, hptr, hkey⟩ := h
  have hplen : ts.page.length = min count (S.length - off) := by
    rw [hpage]; simp [List.length_take, List.length_drop]
  by_cases hin : ts.ptr < ts.page.length
  · -- the pointer is inside the page: no fetch
    have h1 : ts.ptr < count := by omega
    have h2 : off + ts.ptr < S.length := by omega
    have hposS : pos < S.length := by omega
    have hv : ts.page[ts.ptr]? = some (S[pos]) := by
      rw [hpage, List.getElem?_take, if_pos h1, List.getElem?_drop]
      have : off + ts.ptr = pos := by omega
      rw [this, List.getElem?_eq_getElem hposS]
    have hres : getNextItemIdFromResults L count ts = (some (S[pos]), ts) := by
      unfold getNextItemIdFromResults
      rw [hv]
    refine ⟨by rw [hres, List.getElem?_eq_getElem hposS], ?_, ?_⟩
    · rw [hres]
      exact ⟨off, hoffS, hoffpos, hposbound, hpage, hptr, hkey⟩
    · intro _
      rw [hres]
      exact hin
  · -- the pointer walked off the page: the source refills it
    have hptrend : ts.ptr = ts.page.length := by omega
    have hposend : pos = off + ts.page.length := by omega
    have hnone : ts.page[ts.ptr]? = none :=
      List.getElem?_eq_none (by omega)
    by_cases hmore : off + count < S.length
    · -- a pagination key is present: fetch the next window
      have hplen' : ts.page.length = count := by omega
      have hk1 : off + count - 1 < S.length := by omega
      have hkeyv : ts.key = some (S[off + count - 1]) := by
        rw [hkey, if_pos hmore, List.getElem?_eq_getElem hk1]
      have hmemS : S[off + count - 1] ∈ S := S.getElem_mem hk1
      have hmemS' : S[off + count - 1] ∈ startAfter c L := by
        rw [← hSdef]; exact hmemS
      have hcs : ∀ s, c = some s → s < S[off + count - 1] :=
        fun s hs => (mem_startAfter.mp hmemS').2 s hs
      have hremaining :
          startAfter (some (S[off + count - 1])) L = S.drop (off + count) := by
        rw [startAfter_startAfter hcs, ← hSdef,
          filter_gt_getElem_eq_drop hSsort _ hk1]
        congr 1
        omega
      have hdroplen : (S.drop (off + count)).length = S.length - (off + count) :=
        List.length_drop _ _
      have hpgne : ¬ ((S.drop (off + count)).take count).isEmpty = true := by
        rw [List.isEmpty_iff]
        intro hnil
        have := congrArg List.length hnil
        simp only [List.length_take, List.length_drop, List.length_nil] at this
        omega
      have hquery : listIdsFromDbUsingTags L (some (S[off + count - 1])) count =
          (some ((S.drop (off + count)).take count),
            if count < (S.drop (off + count)).length then
              ((S.drop (off + count)).take count).getLast? else none) := by
        unfold listIdsFromDbUsingTags
        rw [hremaining]
        simp [List.isEmpty_iff] at hpgne ⊢
        simp [hpgne]
      have hfetch : getNextPageOfResults L count ts =
          ({ page := (S.drop (off + count)).take count,
             key := if count < (S.drop (off + count)).length then
               ((S.drop (off + count)).take count).getLast? else none,
             ptr := 0 }, true) := by
        unfold getNextPageOfResults
        rw [hkeyv]
        simp only [hquery]
      have hres : getNextItemIdFromResults L count ts =
          (((S.drop (off + count)).take count)[0]?,
           { page := (S.drop (off + count)).take count,
             key := if count < (S.drop (off + count)).length then
               ((S.drop (off + count)).take count).getLast? else none,
             ptr := 0 }) := by
        unfold getNextItemIdFromResults
        rw [hnone, hfetch]
        simp
      have hposval : pos = off + count := by omega
      have hval : ((S.drop (off + count)).take count)[0]? = S[pos]? := by
        rw [List.getElem?_take, if_pos (by omega : 0 < count),
          List.getElem?_drop]
        congr 1
        omega
      refine ⟨by rw [hres, hval], ?_, ?_⟩
      · rw [hres]
        refine tagRel_intro (off + count) (by omega) (by omega)
          (by rw [hposval]; exact Nat.le_add_right _ _) rfl (by omega) ?_
        by_cases hmore2 : off + count + count < S.length
        · rw [if_pos (by omega : count < (S.drop (off + count)).length),
            if_pos hmore2]
          exact getLast?_take_drop hcount (by omega)
        · rw [if_neg (by omega : ¬ count < (S.drop (off + count)).length),
            if_neg hmore2]
      · intro _
        rw [hres]
        simp only [List.length_take, List.length_drop]
        omega
    · -- no pagination key: the cursor is exhausted
      have hkeyn : ts.key = none := by rw [hkey, if_neg hmore]
      have hSnone : S[pos]? = none := List.getElem?_eq_none (by omega)
      have hres : getNextItemIdFromResults L count ts = (none, ts) := by
        unfold getNextItemIdFromResults
        rw [hnone]
        unfold getNextPageOfResults
        rw [hkeyn]
        simp
      refine ⟨by rw [hres, hSnone], ?_, ?_⟩
      · rw [hres]
        exact ⟨off, hoffS, hoffpos, hposbound, hpage, hptr, hkey⟩
      · intro hsome
        rw [hSnone] at hsome
        simp at hsome

/-- One pass of the concrete `for` loop, simulated by the abstract one: both
compute the same `matchedItemIds` and `keepGoing`, and the cursor states stay
related to the abstract positions.  `hprev` records that the tags left of `i`
have already been read during this pass, leaving their pointers strictly
inside their pages (so that a recorded match may advance them). -/
theorem innerLoop_sim {n : Nat} {L S : Fin n → List Nat} {c : Option Nat}
    {count : Nat} (hL : ∀ j, (L j).Sorted (· < ·))
    (hS : ∀ j, S j = startAfter c (L j)) (hcount : 1 ≤ count) :
    ∀ (gas i : Nat) (st : Fin n → TagState) (p : Fin n → Nat)
      (matched : List Nat),
      (∀ j, TagRel (S j) count (st j) (p j)) →
      (∀ j : Fin n, (j : Nat) < i → (st j).ptr < (st j).page.length) →
      ∃ st',
        innerLoop L count gas i st matched =
          (st', (innerAbs S gas i p matched).2.1,
            (innerAbs S gas i p matched).2.2) ∧
        ∀ j, TagRel (S j) count (st' j) ((innerAbs S gas i p matched).1 j)
  | 0, i, st, p, matched, hR, _ => ⟨st, rfl, hR⟩
  | gas + 1, i, st, p, matched, hR, hprev => by
    by_cases hi : i < n
    · have hsim := getNext_sim (hL ⟨i, hi⟩) hcount (hS ⟨i, hi⟩ ▸ hR ⟨i, hi⟩)
      rw [← hS ⟨i, hi⟩] at hsim
      rcases hres : getNextItemIdFromResults (L ⟨i, hi⟩) count (st ⟨i, hi⟩)
        with ⟨v1, ts1⟩
      rw [hres] at hsim
      dsimp only at hsim
      obtain ⟨hv1, hrel1, hin1⟩ := hsim
      cases v1 with
      | none =>
        have habs : innerAbs S (gas + 1) i p matched = (p, matched, false) := by
          simp only [innerAbs]
          rw [dif_pos hi, ← hv1]
        have hconc : innerLoop L count (gas + 1) i st matched =
            (Function.update st ⟨i, hi⟩ ts1, matched, false) := by
          simp only [innerLoop]
          rw [dif_pos hi, hres]
        refine ⟨Function.update st ⟨i, hi⟩ ts1, by rw [habs, hconc], ?_⟩
        intro j
        rw [habs]
        by_cases hji : j = ⟨i, hi⟩
        · subst hji
          rw [Function.update_same]
          exact hrel1
        · rw [Function.update_noteq hji]
          exact hR j
      | some cur =>
        by_cases hl : i = n - 1
        · -- a full match: record it and advance every cursor
          have habs : innerAbs S (gas + 1) i p matched =
              (fun j => p j + 1, matched ++ [cur], true) := by
            simp only [innerAbs]
            rw [dif_pos hi, ← hv1]
            dsimp only
            rw [dif_pos hl]
          have hconc : innerLoop L count (gas + 1) i st matched =
              (bumpAllPtr (Function.update st ⟨i, hi⟩ ts1),
                matched ++ [cur], true) := by
            simp only [innerLoop]
            rw [dif_pos hi, hres]
            dsimp only
            rw [dif_pos hl]
          refine ⟨bumpAllPtr (Function.update st ⟨i, hi⟩ ts1),
            by rw [habs, hconc], ?_⟩
          intro j
          rw [habs]
          dsimp only [bumpAllPtr]
          by_cases hji : j = ⟨i, hi⟩
          · subst hji
            rw [Function.update_same]
            exact hrel1.bump (hin1 (by rw [← hv1]; rfl))
          · rw [Function.update_noteq hji]
            have hjlt : (j : Nat) < i := by
              have h1 : (j : Nat) < n := j.isLt
              have h2 : (j : Nat) ≠ i := fun h => hji (Fin.ext h)
              omega
            exact (hR j).bump (hprev j hjlt)
        · -- compare with the next tag
          have hj : i + 1 < n := by omega
          have hne : (⟨i + 1, hj⟩ : Fin n) ≠ ⟨i, hi⟩ := by
            intro h
            rw [Fin.mk.injEq] at h
            omega
          have hst1j :
              Function.update st ⟨i, hi⟩ ts1 ⟨i + 1, hj⟩ = st ⟨i + 1, hj⟩ :=
            Function.update_noteq hne _ _
          have hsim2 := getNext_sim (hL ⟨i + 1, hj⟩) hcount
            (hS ⟨i + 1, hj⟩ ▸ hR ⟨i + 1, hj⟩)
          rw [← hS ⟨i + 1, hj⟩] at hsim2
          rcases hres2 : getNextItemIdFromResults (L ⟨i + 1, hj⟩) count
              (st ⟨i + 1, hj⟩) with ⟨v2, ts2⟩
          rw [hres2] at hsim2
          dsimp only at hsim2
          obtain ⟨hv2, hrel2, hin2⟩ := hsim2
          have hR2 : ∀ j,
              TagRel (S j) count
                (Function.update (Function.update st ⟨i, hi⟩ ts1)
                  ⟨i + 1, hj⟩ ts2 j) (p j) := by
            intro j
            by_cases hj2 : j = ⟨i + 1, hj⟩
            · subst hj2
              rw [Function.update_same]
              exact hrel2
            · rw [Function.update_noteq hj2]
              by_cases hj1 : j = ⟨i, hi⟩
              · subst hj1
                rw [Function.update_same]
                exact hrel1
              · rw [Function.update_noteq hj1]
                exact hR j
          cases v2 with
          | none =>
            have habs : innerAbs S (gas + 1) i p matched =
                (p, matched, false) := by
              simp only [innerAbs]
              rw [dif_pos hi, ← hv1]
              dsimp only
              rw [dif_neg hl, ← hv2]
            have hconc : innerLoop L count (gas + 1) i st matched =
                (Function.update (Function.update st ⟨i, hi⟩ ts1)
                  ⟨i + 1, hj⟩ ts2, matched, false) := by
              simp only [innerLoop]
              rw [dif_pos hi, hres]
              dsimp only
              rw [dif_neg hl, hst1j, hres2]
            refine ⟨_, by rw [habs, hconc], ?_⟩
            intro j
            rw [habs]
            exact hR2 j
          | some next =>
            by_cases hcomp : cur = next
            · -- equal identifiers: fall through to the next pair
              have hprev2 : ∀ j : Fin n, (j : Nat) < i + 1 →
                  ((Function.update (Function.update st ⟨i, hi⟩ ts1)
                    ⟨i + 1, hj⟩ ts2) j).ptr <
                  ((Function.update (Function.update st ⟨i, hi⟩ ts1)
                    ⟨i + 1, hj⟩ ts2) j).page.length := by
                intro j hjlt
                by_cases hj1 : j = ⟨i, hi⟩
                · subst hj1
                  rw [Function.update_noteq hne.symm, Function.update_same]
                  exact hin1 (by rw [← hv1]; rfl)
                · have hjlt' : (j : Nat) < i := by
                    have h2 : (j : Nat) ≠ i := fun h => hj1 (Fin.ext h)
                    omega
                  have hj2 : j ≠ (⟨i + 1, hj⟩ : Fin n) := by
                    intro h
                    rw [Fin.ext_iff] at h
                    simp at h
                    omega
                  rw [Function.update_noteq hj2, Function.update_noteq hj1]
                  exact hprev j hjlt'
              obtain ⟨st', h1, h2⟩ := innerLoop_sim hL hS hcount gas (i + 1)
                (Function.update (Function.update st ⟨i, hi⟩ ts1)
                  ⟨i + 1, hj⟩ ts2) p matched hR2 hprev2
              have habs : innerAbs S (gas + 1) i p matched =
                  innerAbs S gas (i + 1) p matched := by
                simp only [innerAbs]
                rw [dif_pos hi, ← hv1]
                dsimp only
                rw [dif_neg hl, ← hv2]
                dsimp only
                rw [if_pos hcomp]
              have hconc : innerLoop L count (gas + 1) i st matched =
                  innerLoop L count gas (i + 1)
                    (Function.update (Function.update st ⟨i, hi⟩ ts1)
                      ⟨i + 1, hj⟩ ts2) matched := by
                simp only [innerLoop]
                rw [dif_pos hi, hres]
                dsimp only
                rw [dif_neg hl, hst1j, hres2]
                dsimp only
                rw [if_pos hcomp]
              exact ⟨st', by rw [habs, hconc]; exact h1, by rw [habs]; exact h2⟩
            · by_cases hlt : cur < next
              · -- this tag is behind: advance it and restart
                have habs : innerAbs S (gas + 1) i p matched =
                    (Function.update p ⟨i, hi⟩ (p ⟨i, hi⟩ + 1), matched,
                      true) := by
                  simp only [innerAbs]
                  rw [dif_pos hi, ← hv1]
                  dsimp only
                  rw [dif_neg hl, ← hv2]
                  dsimp only
                  rw [if_neg hcomp, if_pos hlt]
                have hconc : innerLoop L count (gas + 1) i st matched =
                    (bumpPtr (Function.update (Function.update st ⟨i, hi⟩ ts1)
                      ⟨i + 1, hj⟩ ts2) ⟨i, hi⟩, matched, true) := by
                  simp only [innerLoop]
                  rw [dif_pos hi, hres]
                  dsimp only
                  rw [dif_neg hl, hst1j, hres2]
                  dsimp only
                  rw [if_neg hcomp, if_pos hlt]
                refine ⟨_, by rw [habs, hconc], ?_⟩
                intro j
                rw [habs]
                dsimp only [bumpPtr]
                by_cases hj1 : j = ⟨i, hi⟩
                · subst hj1
                  rw [Function.update_same, Function.update_same,
                    Function.update_noteq hne.symm, Function.update_same]
                  exact hrel1.bump (hin1 (by rw [← hv1]; rfl))
                · rw [Function.update_noteq hj1, Function.update_noteq hj1]
                  exact hR2 j
              · -- the next tag is behind: advance it and restart
                have habs : innerAbs S (gas + 1) i p matched =
                    (Function.update p ⟨i + 1, hj⟩ (p ⟨i + 1, hj⟩ + 1),
                      matched, true) := by
                  simp only [innerAbs]
                  rw [dif_pos hi, ← hv1]
                  dsimp only
                  rw [dif_neg hl, ← hv2]
                  dsimp only
                  rw [if_neg hcomp, if_neg hlt]
                have hconc : innerLoop L count (gas + 1) i st matched =
                    (bumpPtr (Function.update (Function.update st ⟨i, hi⟩ ts1)
                      ⟨i + 1, hj⟩ ts2) ⟨i + 1, hj⟩, matched, true) := by
                  simp only [innerLoop]
                  rw [dif_pos hi, hres]
                  dsimp only
                  rw [dif_neg hl, hst1j, hres2]
                  dsimp only
                  rw [if_neg hcomp, if_neg hlt]
                refine ⟨_, by rw [habs, hconc], ?_⟩
                intro j
                rw [habs]
                dsimp only [bumpPtr]
                by_cases hj2 : j = ⟨i + 1, hj⟩
                · subst hj2
                  rw [Function.update_same, Function.update_same,
                    Function.update_same]
                  exact hrel2.bump (hin2 (by rw [← hv2]; rfl))
                · have hp : Function.update p ⟨i + 1, hj⟩
                      (p ⟨i + 1, hj⟩ + 1) j = p j :=
                    Function.update_noteq hj2 _ _
                  rw [Function.update_noteq hj2, hp]
                  exact hR2 j
    · -- the `for` range is exhausted (only reachable when `n = 0`)
      have habs : innerAbs S (gas + 1) i p matched = (p, matched, true) := by
        simp only [innerAbs]
        rw [dif_neg hi]
      have hconc : innerLoop L count (gas + 1) i st matched =
          (st, matched, true) := by
        simp only [innerLoop]
        rw [dif_neg hi]
      exact ⟨st, by rw [habs, hconc], by rw [habs]; exact hR⟩

/-- The concrete `while` loop computes exactly what the abstract one does, as
long as the cursors start out related to the abstract positions. -/
theorem mainLoop_sim {n : Nat} {L S : Fin n → List Nat} {c : Option Nat}
    {count : Nat} (hL : ∀ j, (L j).Sorted (· < ·))
    (hS : ∀ j, S j = startAfter c (L j)) (hcount : 1 ≤ count) :
    ∀ (fuel : Nat) (st : Fin n → TagState) (p : Fin n → Nat)
      (matched : List Nat),
      (∀ j, TagRel (S j) count (st j) (p j)) →
      mainLoop L count fuel st matched = mainAbs S count fuel p matched
  | 0, _, _, _, _ => rfl
  | fuel + 1, st, p, matched, hR => by
    simp only [mainLoop, mainAbs]
    by_cases hlen : matched.length < count
    · rw [if_pos hlen, if_pos hlen]
      obtain ⟨st', h1, h2⟩ := innerLoop_sim hL hS hcount n 0 st p matched hR
        (fun j hj => absurd hj (by omega))
      rcases habs : innerAbs S n 0 p matched with ⟨p', m', b⟩
      rw [habs] at h1 h2
      dsimp only at h1 h2
      rw [h1]
      cases b with
      | true => exact mainLoop_sim hL hS hcount fuel st' p' m' h2
      | false => rfl
    · rw [if_neg hlen, if_neg hlen]

/-! ### Correctness of the abstract merge loop -/

/-- One pass of the abstract `for` loop, from index `i` with all earlier
cursors peeking the same identifier as cursor `i`: it either stops on an
exhausted cursor, records a match (an identifier common to all streams) and
advances every cursor, or advances exactly one cursor past an identifier that
cannot lie in the intersection — in every case preserving the invariant. -/
theorem innerAbs_spec {n : Nat} {S : Fin n → List Nat}
    (hsort : ∀ j, (S j).Sorted (· < ·)) :
    ∀ (gas i : Nat) (hi : i < n) (hgas : n ≤ gas + i) (p : Fin n → Nat)
      (matched : List Nat),
      GInv S p matched →
      (∀ j : Fin n, (j : Nat) < i → (S j)[p j]? = (S ⟨i, hi⟩)[p ⟨i, hi⟩]?) →
      (innerAbs S gas i p matched = (p, matched, false) ∧
        ∃ j : Fin n, (S j).length ≤ p j) ∨
      (∃ x, innerAbs S gas i p matched =
          (fun j => p j + 1, matched ++ [x], true) ∧
        GInv S (fun j => p j + 1) (matched ++ [x])) ∨
      (∃ p', innerAbs S gas i p matched = (p', matched, true) ∧
        GInv S p' matched ∧
        (∑ j, p' j) = (∑ j, p j) + 1)
  | 0, i, hi, hgas, p, matched, hInv, hchain => absurd hgas (by omega)
  | gas + 1, i, hi, _hgas, p, matched, hInv, hchain => by
    obtain ⟨hsorted, hsub, hpassed, hbehind, hbound⟩ := hInv
    rcases hv1 : (S ⟨i, hi⟩)[p ⟨i, hi⟩]? with _ | cur
    · -- cursor `i` is exhausted
      left
      constructor
      · simp only [innerAbs]
        rw [dif_pos hi, hv1]
      · exact ⟨⟨i, hi⟩, List.getElem?_eq_none_iff.mp hv1⟩
    · have hcuri : p ⟨i, hi⟩ < (S ⟨i, hi⟩).length := by
        rcases List.getElem?_eq_some.mp hv1 with ⟨h, _⟩
        exact h
      have hcurval : (S ⟨i, hi⟩)[p ⟨i, hi⟩] = cur := by
        rcases List.getElem?_eq_some.mp hv1 with ⟨h, hval⟩
        exact hval
      by_cases hl : i = n - 1
      · -- all cursors agree: a match
        right; left
        have hcurall : ∀ j : Fin n, (S j)[p j]? = some cur := by
          intro j
          by_cases hji : (j : Nat) = i
          · have : j = ⟨i, hi⟩ := Fin.ext hji
            rw [this]; exact hv1
          · have hjlt : (j : Nat) < i := by
              have := j.isLt
              omega
            rw [hchain j hjlt]; exact hv1
        have hcurmem : ∀ j, cur ∈ S j := by
          intro j
          exact List.getElem?_mem (hcurall j)
        have hlt_cur : ∀ y ∈ matched, y < cur := by
          intro y hy
          obtain ⟨k, hk, hky⟩ := hbehind y hy ⟨i, hi⟩
          rcases List.getElem?_eq_some.mp hky with ⟨hk2, hkv⟩
          have := sorted_getElem_lt (hsort ⟨i, hi⟩) hk2 hcuri hk
          rw [hkv, hcurval] at this
          exact this
        refine ⟨cur, ?_, ?_, ?_, ?_, ?_, ?_⟩
        · simp only [innerAbs]
          rw [dif_pos hi, hv1]
          dsimp only
          rw [dif_pos hl]
        · exact List.pairwise_append.mpr ⟨hsorted,
            List.pairwise_singleton _ cur,
            fun x hx y hy => by simp at hy; subst hy; exact hlt_cur x hx⟩
        · intro x hx j
          rcases List.mem_append.mp hx with hx | hx
          · exact hsub x hx j
          · simp at hx; subst hx; exact hcurmem j
        · intro j k hk x hkx hxall
          rcases Nat.lt_succ_iff_lt_or_eq.mp hk with hk | hk
          · exact List.mem_append.mpr (.inl (hpassed j k hk x hkx hxall))
          · subst hk
            rw [hcurall j] at hkx
            cases hkx
            exact List.mem_append.mpr (.inr (by simp))
        · intro x hx j
          rcases List.mem_append.mp hx with hx | hx
          · obtain ⟨k, hk, hky⟩ := hbehind x hx j
            exact ⟨k, by show k < p j + 1; omega, hky⟩
          · simp at hx; subst hx
            exact ⟨p j, by show p j < p j + 1; omega, hcurall j⟩
        · intro j
          show p j + 1 ≤ (S j).length
          rcases List.getElem?_eq_some.mp (hcurall j) with ⟨h, _⟩
          omega
      · -- compare with cursor `i + 1`
        have hj : i + 1 < n := by omega
        rcases hv2 : (S ⟨i + 1, hj⟩)[p ⟨i + 1, hj⟩]? with _ | next
        · -- cursor `i + 1` is exhausted
          left
          constructor
          · simp only [innerAbs]
            rw [dif_pos hi, hv1]
            dsimp only
            rw [dif_neg hl, hv2]
          · exact ⟨⟨i + 1, hj⟩, List.getElem?_eq_none_iff.mp hv2⟩
        · have hnexti : p ⟨i + 1, hj⟩ < (S ⟨i + 1, hj⟩).length := by
            rcases List.getElem?_eq_some.mp hv2 with ⟨h, _⟩
            exact h
          have hnextval : (S ⟨i + 1, hj⟩)[p ⟨i + 1, hj⟩] = next := by
            rcases List.getElem?_eq_some.mp hv2 with ⟨h, hval⟩
            exact hval
          by_cases hcomp : cur = next
          · -- equal: fall through to the next pair
            have hchain2 : ∀ j' : Fin n, (j' : Nat) < i + 1 →
                (S j')[p j']? = (S ⟨i + 1, hj⟩)[p ⟨i + 1, hj⟩]? := by
              intro j' hj'
              rw [hv2, ← hcomp]
              by_cases hji : (j' : Nat) = i
              · have : j' = ⟨i, hi⟩ := Fin.ext hji
                rw [this]; exact hv1
              · have hjlt : (j' : Nat) < i := by omega
                rw [hchain j' hjlt]; exact hv1
            have hrec := innerAbs_spec hsort gas (i + 1) hj (by omega) p
              matched ⟨hsorted, hsub, hpassed, hbehind, hbound⟩ hchain2
            have hstep : innerAbs S (gas + 1) i p matched =
                innerAbs S gas (i + 1) p matched := by
              simp only [innerAbs]
              rw [dif_pos hi, hv1]
              dsimp only
              rw [dif_neg hl, hv2]
              dsimp only
              rw [if_pos hcomp]
            rw [hstep]
            exact hrec
          · by_cases hlt : cur < next
            · -- `cur` cannot be in the intersection: advance cursor `i`
              right; right
              have hnotI : ¬ (∀ j', cur ∈ S j') := by
                intro hcurI
                obtain ⟨m, hm, hmv⟩ := List.getElem_of_mem (hcurI ⟨i + 1, hj⟩)
                by_cases hmp : m < p ⟨i + 1, hj⟩
                · have hmem := hpassed ⟨i + 1, hj⟩ m hmp cur
                    (by rw [List.getElem?_eq_getElem hm, hmv]) hcurI
                  obtain ⟨k, hk, hky⟩ := hbehind cur hmem ⟨i, hi⟩
                  have hkl : k < (S ⟨i, hi⟩).length := by
                    rcases List.getElem?_eq_some.mp hky with ⟨h, _⟩
                    exact h
                  have hkeq : k = p ⟨i, hi⟩ :=
                    List.getElem?_inj hkl (hsort ⟨i, hi⟩).nodup
                      (by rw [hky, hv1])
                  omega
                · rcases Nat.lt_or_ge (p ⟨i + 1, hj⟩) m with hgt | hge2
                  · have h3 := sorted_getElem_lt (hsort ⟨i + 1, hj⟩) hnexti hm hgt
                    have h4 : next < cur := by
                      rw [← hnextval, ← hmv]
                      exact h3
                    omega
                  · have hmeq : m = p ⟨i + 1, hj⟩ := by omega
                    subst hmeq
                    have h4 : next = cur := by rw [← hnextval, ← hmv]
                    exact hcomp h4.symm
              refine ⟨Function.update p ⟨i, hi⟩ (p ⟨i, hi⟩ + 1), ?_, ?_, ?_⟩
              · simp only [innerAbs]
                rw [dif_pos hi, hv1]
                dsimp only
                rw [dif_neg hl, hv2]
                dsimp only
                rw [if_neg hcomp, if_pos hlt]
              · refine ⟨hsorted, hsub, ?_, ?_, ?_⟩
                · intro j' k hk x hkx hxall
                  by_cases hj' : j' = ⟨i, hi⟩
                  · subst hj'
                    rw [Function.update_same] at hk
                    rcases Nat.lt_succ_iff_lt_or_eq.mp hk with hk | hk
                    · exact hpassed _ k hk x hkx hxall
                    · subst hk
                      rw [hv1] at hkx
                      cases hkx
                      exact absurd hxall hnotI
                  · rw [Function.update_noteq hj'] at hk
                    exact hpassed j' k hk x hkx hxall
                · intro x hx j'
                  obtain ⟨k, hk, hky⟩ := hbehind x hx j'
                  refine ⟨k, ?_, hky⟩
                  by_cases hj' : j' = ⟨i, hi⟩
                  · subst hj'; rw [Function.update_same]; omega
                  · rw [Function.update_noteq hj']; omega
                · intro j'
                  by_cases hj' : j' = ⟨i, hi⟩
                  · subst hj'; rw [Function.update_same]; omega
                  · rw [Function.update_noteq hj']; exact hbound j'
              · rw [Finset.sum_update_of_mem (Finset.mem_univ _)]
                rw [← Finset.add_sum_erase Finset.univ p
                  (Finset.mem_univ (⟨i, hi⟩ : Fin n))]
                have : Finset.univ \ {(⟨i, hi⟩ : Fin n)} =
                    Finset.univ.erase ⟨i, hi⟩ := by
                  rw [Finset.sdiff_singleton_eq_erase]
                rw [this]
                omega
            · -- `next` cannot be in the intersection: advance cursor `i + 1`
              right; right
              have hgt : next < cur := by omega
              have hnotI : ¬ (∀ j', next ∈ S j') := by
                intro hnextI
                obtain ⟨m, hm, hmv⟩ := List.getElem_of_mem (hnextI ⟨i, hi⟩)
                by_cases hmp : m < p ⟨i, hi⟩
                · have hmem := hpassed ⟨i, hi⟩ m hmp next
                    (by rw [List.getElem?_eq_getElem hm, hmv]) hnextI
                  obtain ⟨k, hk, hky⟩ := hbehind next hmem ⟨i + 1, hj⟩
                  have hkl : k < (S ⟨i + 1, hj⟩).length := by
                    rcases List.getElem?_eq_some.mp hky with ⟨h, _⟩
                    exact h
                  have hkeq : k = p ⟨i + 1, hj⟩ :=
                    List.getElem?_inj hkl (hsort ⟨i + 1, hj⟩).nodup
                      (by rw [hky, hv2])
                  omega
                · rcases Nat.lt_or_ge (p ⟨i, hi⟩) m with hgt2 | hge2
                  · have h3 := sorted_getElem_lt (hsort ⟨i, hi⟩) hcuri hm hgt2
                    have h4 : cur < next := by
                      rw [← hcurval, ← hmv]
                      exact h3
                    omega
                  · have hmeq : m = p ⟨i, hi⟩ := by omega
                    subst hmeq
                    have h4 : cur = next := by rw [← hcurval, ← hmv]
                    exact hcomp h4
              refine ⟨Function.update p ⟨i + 1, hj⟩ (p ⟨i + 1, hj⟩ + 1),
                ?_, ?_, ?_⟩
              · simp only [innerAbs]
                rw [dif_pos hi, hv1]
                dsimp only
                rw [dif_neg hl, hv2]
                dsimp only
                rw [if_neg hcomp, if_neg hlt]
              · refine ⟨hsorted, hsub, ?_, ?_, ?_⟩
                · intro j' k hk x hkx hxall
                  by_cases hj' : j' = ⟨i + 1, hj⟩
                  · subst hj'
                    rw [Function.update_same] at hk
                    rcases Nat.lt_succ_iff_lt_or_eq.mp hk with hk | hk
                    · exact hpassed _ k hk x hkx hxall
                    · subst hk
                      rw [hv2] at hkx
                      cases hkx
                      exact absurd hxall hnotI
                  · rw [Function.update_noteq hj'] at hk
                    exact hpassed j' k hk x hkx hxall
                · intro x hx j'
                  obtain ⟨k, hk, hky⟩ := hbehind x hx j'
                  refine ⟨k, ?_, hky⟩
                  by_cases hj' : j' = ⟨i + 1, hj⟩
                  · subst hj'; rw [Function.update_same]; omega
                  · rw [Function.update_noteq hj']; omega
                · intro j'
                  by_cases hj' : j' = ⟨i + 1, hj⟩
                  · subst hj'; rw [Function.update_same]; omega
                  · rw [Function.update_noteq hj']; exact hbound j'
              · rw [Finset.sum_update_of_mem (Finset.mem_univ _)]
                rw [← Finset.add_sum_erase Finset.univ p
                  (Finset.mem_univ (⟨i + 1, hj⟩ : Fin n))]
                have : Finset.univ \ {(⟨i + 1, hj⟩ : Fin n)} =
                    Finset.univ.erase ⟨i + 1, hj⟩ := by
                  rw [Finset.sdiff_singleton_eq_erase]
                rw [this]
                omega

/-- The abstract `while` loop terminates within `∑ (length - position) + 1`
iterations, preserving the invariant, and stops either because the requested
`count` of matches was reached or because some cursor ran off its stream. -/
theorem mainAbs_correct {n : Nat} {S : Fin n → List Nat} {count : Nat}
    (hn : 0 < n) (hsort : ∀ j, (S j).Sorted (· < ·)) :
    ∀ (fuel : Nat) (p : Fin n → Nat) (matched : List Nat),
      GInv S p matched →
      matched.length ≤ count →
      (∑ j, ((S j).length - p j)) < fuel →
      ∃ final p', mainAbs S count fuel p matched = some final ∧
        GInv S p' final ∧ final.length ≤ count ∧
        (final.length = count ∨ ∃ j, (S j).length ≤ p' j)
  | 0, p, matched, _, _, hfuel => absurd hfuel (by omega)
  | fuel + 1, p, matched, hInv, hlen, hfuel => by
    by_cases hrun : matched.length < count
    · have hspec := innerAbs_spec hsort n 0 hn (by omega) p matched hInv
        (fun j hj => absurd hj (by omega))
      rcases hspec with ⟨heq, j0, hj0⟩ | ⟨x, heq, hInv'⟩ | ⟨p', heq, hInv', hsum⟩
      · -- exhaustion: the loop stops with `keepGoing = false`
        refine ⟨matched, p, ?_, hInv, hlen, .inr ⟨j0, hj0⟩⟩
        simp only [mainAbs]
        rw [if_pos hrun, heq]
      · -- a match was recorded: continue
        have hb : ∀ j, p j + 1 ≤ (S j).length := by
          intro j
          exact hInv'.2.2.2.2 j
        have hsum1 : (∑ j, ((S j).length - (p j + 1))) + n =
            (∑ j, ((S j).length - p j)) := by
          have h1 : ∀ j : Fin n, ((S j).length - (p j + 1)) + 1 =
              (S j).length - p j := by
            intro j
            have := hb j
            omega
          calc (∑ j, ((S j).length - (p j + 1))) + n
              = (∑ j, ((S j).length - (p j + 1))) + (∑ _j : Fin n, 1) := by
                simp
            _ = ∑ j, (((S j).length - (p j + 1)) + 1) := by
                rw [Finset.sum_add_distrib]
            _ = ∑ j, ((S j).length - p j) :=
                Finset.sum_congr rfl (fun j _ => h1 j)
        have hlen' : (matched ++ [x]).length ≤ count := by
          simp only [List.length_append, List.length_singleton]
          omega
        have hfuel' :
            (∑ j, ((S j).length - ((fun j : Fin n => p j + 1) j))) < fuel := by
          have hred : (∑ j, ((S j).length - ((fun j : Fin n => p j + 1) j))) =
              (∑ j, ((S j).length - (p j + 1))) :=
            Finset.sum_congr rfl (fun j _ => rfl)
          omega
        obtain ⟨final, p', hrec, hI, hl, hstop⟩ :=
          mainAbs_correct hn hsort fuel (fun j => p j + 1) (matched ++ [x])
            hInv' hlen' hfuel'
        refine ⟨final, p', ?_, hI, hl, hstop⟩
        simp only [mainAbs]
        rw [if_pos hrun, heq]
        exact hrec
      · -- one cursor advanced: continue
        have hb : ∀ j, p' j ≤ (S j).length := fun j => hInv'.2.2.2.2 j
        have hb0 : ∀ j, p j ≤ (S j).length := fun j => hInv.2.2.2.2 j
        have hd1 : (∑ j, ((S j).length - p' j)) =
            (∑ j, (S j).length) - (∑ j, p' j) :=
          Finset.sum_tsub_distrib Finset.univ (fun j _ => hb j)
        have hd0 : (∑ j, ((S j).length - p j)) =
            (∑ j, (S j).length) - (∑ j, p j) :=
          Finset.sum_tsub_distrib Finset.univ (fun j _ => hb0 j)
        have hple : (∑ j, p' j) ≤ (∑ j, (S j).length) :=
          Finset.sum_le_sum (fun j _ => hb j)
        obtain ⟨final, p'', hrec, hI, hl, hstop⟩ :=
          mainAbs_correct hn hsort fuel p' matched hInv' hlen (by omega)
        refine ⟨final, p'', ?_, hI, hl, hstop⟩
        simp only [mainAbs]
        rw [if_pos hrun, heq]
        exact hrec
    · refine ⟨matched, p, ?_, hInv, hlen, .inl (by omega)⟩
      simp only [mainAbs]
      rw [if_neg hrun]

/-! ### From the invariant to the intersection list -/

theorem mem_interAll {m : Nat} {S : Fin (m + 1) → List Nat} {x : Nat} :
    x ∈ interAll S ↔ ∀ j, x ∈ S j := by
  show x ∈ (S ⟨0, Nat.succ_pos m⟩).filter (fun x => decide (∀ j, x ∈ S j)) ↔ _
  rw [List.mem_filter]
  constructor
  · rintro ⟨_, h⟩
    simpa using h
  · intro h
    exact ⟨h ⟨0, Nat.succ_pos m⟩, by simpa using h⟩

theorem interAll_sorted {m : Nat} {S : Fin (m + 1) → List Nat}
    (hsort : ∀ j, (S j).Sorted (· < ·)) :
    (interAll S).Sorted (· < ·) :=
  (hsort ⟨0, Nat.succ_pos m⟩).filter _

theorem interAll_nodup {m : Nat} {S : Fin (m + 1) → List Nat}
    (hsort : ∀ j, (S j).Sorted (· < ·)) :
    (interAll S).Nodup :=
  List.Nodup.filter _ (hsort ⟨0, Nat.succ_pos m⟩).nodup

/-- A sorted, downward-closed sublist of a sorted list is an initial
segment. -/
theorem sorted_downward_eq_take {final I : List Nat}
    (hI : I.Sorted (· < ·)) (hf : final.Sorted (· < ·))
    (hsub : ∀ x ∈ final, x ∈ I)
    (hdc : ∀ x ∈ final, ∀ y ∈ I, y < x → y ∈ final) :
    final = I.take final.length := by
  induction final generalizing I with
  | nil => simp
  | cons a fs ih =>
    cases I with
    | nil => exact absurd (hsub a (by simp)) (by simp)
    | cons b Is =>
      have hbI : ∀ y ∈ Is, b < y := (List.sorted_cons.mp hI).1
      have haf : ∀ y ∈ fs, a < y := (List.sorted_cons.mp hf).1
      have hab : a = b := by
        rcases List.mem_cons.mp (hsub a (by simp)) with h | haIs
        · exact h
        · have hba : b < a := hbI a haIs
          have hbf : b ∈ a :: fs :=
            hdc a (by simp) b (by simp) hba
          rcases List.mem_cons.mp hbf with h | hbfs
          · omega
          · have := haf b hbfs
            omega
      subst hab
      have hfs : fs = Is.take fs.length := by
        refine ih (List.sorted_cons.mp hI).2 (List.sorted_cons.mp hf).2 ?_ ?_
        · intro x hx
          rcases List.mem_cons.mp (hsub x (List.mem_cons_of_mem a hx)) with h | h
          · subst h
            exact absurd (haf x hx) (lt_irrefl x)
          · exact h
        · intro x hx y hy hyx
          have hyf := hdc x (List.mem_cons_of_mem a hx) y
            (List.mem_cons_of_mem a hy) hyx
          rcases List.mem_cons.mp hyf with h | h
          · subst h
            exact absurd (hbI y hy) (lt_irrefl y)
          · exact h
      rw [List.length_cons, List.take_succ_cons, ← hfs]

/-- At loop exit the matched list is exactly the first `count` entries of the
sorted intersection of the streams. -/
theorem ginv_final {m : Nat} {S : Fin (m + 1) → List Nat} {count : Nat}
    (hsort : ∀ j, (S j).Sorted (· < ·)) {p : Fin (m + 1) → Nat}
    {final : List Nat} (hI : GInv S p final) (hlen : final.length ≤ count)
    (hstop : final.length = count ∨ ∃ j, (S j).length ≤ p j) :
    final = (interAll S).take count := by
  obtain ⟨hsorted, hsub, hpassed, hbehind, hbound⟩ := hI
  have hsubI : ∀ x ∈ final, x ∈ interAll S :=
    fun x hx => mem_interAll.mpr (hsub x hx)
  have hdc : ∀ x ∈ final, ∀ y ∈ interAll S, y < x → y ∈ final := by
    intro x hx y hy hyx
    have hyall := mem_interAll.mp hy
    obtain ⟨k, hk, hky⟩ := hbehind x hx ⟨0, Nat.succ_pos m⟩
    rcases List.getElem?_eq_some.mp hky with ⟨hkl, hkv⟩
    obtain ⟨ky, hkyl, hkyv⟩ := List.getElem_of_mem (hyall ⟨0, Nat.succ_pos m⟩)
    have hkylt : ky < k := by
      by_contra hcon
      have hle : k ≤ ky := Nat.le_of_not_lt hcon
      have hxley : x ≤ y := by
        rcases Nat.eq_or_lt_of_le hle with heq | hlt2
        · subst heq
          rw [← hkv, ← hkyv]
        · have h5 := sorted_getElem_lt (hsort ⟨0, Nat.succ_pos m⟩) hkl hkyl hlt2
          rw [hkv, hkyv] at h5
          exact le_of_lt h5
      omega
    exact hpassed ⟨0, Nat.succ_pos m⟩ ky (by omega) y
      (by rw [List.getElem?_eq_getElem hkyl, hkyv]) hyall
  have htake := sorted_downward_eq_take (interAll_sorted hsort) hsorted
    hsubI hdc
  rcases hstop with hstop | ⟨j, hj⟩
  · rw [htake, hstop]
  · -- the whole intersection was matched
    have hIsub : ∀ x ∈ interAll S, x ∈ final := by
      intro x hx
      obtain ⟨k, hkl, hkv⟩ := List.getElem_of_mem (mem_interAll.mp hx j)
      exact hpassed j k (by omega) x
        (by rw [List.getElem?_eq_getElem hkl, hkv]) (mem_interAll.mp hx)
    have hlenI : (interAll S).length ≤ final.length :=
      ((interAll_nodup hsort).subperm hIsub).length_le
    rw [htake, List.take_of_length_le hlenI, List.take_of_length_le (by omega)]

/-- Full characterisation of `listIds` over strictly ascending posting lists:
either some tag's visible stream (the part of its posting list after the
continuation key) is empty and the source short-circuits to
`[undefined, undefined]`, or the matched identifiers are exactly the first
`count` entries of the sorted intersection of the visible streams, with the
continuation key equal to the last matched identifier exactly when the page
is full. -/
theorem listIds_spec {m : Nat} (L : Fin (m + 1) → List Nat) (c : Option Nat)
    (count : Nat) (hL : ∀ j, (L j).Sorted (· < ·)) (hcount : 1 ≤ count) :
    listIds (m + 1) L c count =
      if ∃ j, startAfter c (L j) = [] then some (none, none)
      else
        some
          (some ((interAll (fun j => startAfter c (L j))).take count),
            if ((interAll (fun j => startAfter c (L j))).take count).length =
                count then
              ((interAll (fun j => startAfter c (L j))).take count)[count - 1]?
            else none) := by
  by_cases hempty : ∃ j, startAfter c (L j) = []
  · rw [if_pos hempty]
    obtain ⟨j, hj⟩ := hempty
    have hfj : listIdsFromDbUsingTags (L j) c count = (none, none) := by
      unfold listIdsFromDbUsingTags
      rw [hj]
      simp
    have hguard : (List.finRange (m + 1)).any
        (fun i => (((listIdsFromDbUsingTags (L i) c count).1).getD
          []).isEmpty) = true := by
      rw [List.any_eq_true]
      refine ⟨j, List.mem_finRange j, ?_⟩
      rw [hfj]
      rfl
    simp only [listIds]
    rw [if_pos hguard]
  · rw [if_neg hempty]
    have hne : ∀ j, startAfter c (L j) ≠ [] := by
      intro j hj
      exact hempty ⟨j, hj⟩
    have hSsort : ∀ j, (startAfter c (L j)).Sorted (· < ·) :=
      fun j => startAfter_sorted (hL j) c
    have htakene : ∀ i : Fin (m + 1),
        ¬ ((startAfter c (L i)).take count).isEmpty = true := by
      intro i hcon
      rw [List.isEmpty_iff, List.take_eq_nil_iff] at hcon
      rcases hcon with h | h
      · omega
      · exact hne i h
    have hfirst : ∀ i : Fin (m + 1),
        listIdsFromDbUsingTags (L i) c count =
          (some ((startAfter c (L i)).take count),
            if count < (startAfter c (L i)).length then
              ((startAfter c (L i)).take count).getLast? else none) := by
      intro i
      unfold listIdsFromDbUsingTags
      simp only [List.isEmpty_iff, List.take_eq_nil_iff] at htakene ⊢
      rw [if_neg (htakene i)]
    have hguard : ¬ ((List.finRange (m + 1)).any
        (fun i => (((listIdsFromDbUsingTags (L i) c count).1).getD
          []).isEmpty) = true) := by
      rw [List.any_eq_true]
      rintro ⟨i, _, hcon⟩
      rw [hfirst i] at hcon
      exact htakene i hcon
    have hst0 : (fun i : Fin (m + 1) =>
        ({ page := ((listIdsFromDbUsingTags (L i) c count).1).getD [],
           key := (listIdsFromDbUsingTags (L i) c count).2,
           ptr := 0 } : TagState)) =
        (fun i : Fin (m + 1) =>
          ({ page := (startAfter c (L i)).take count,
             key := if count < (startAfter c (L i)).length then
               ((startAfter c (L i)).take count).getLast? else none,
             ptr := 0 } : TagState)) := by
      funext i
      rw [hfirst i]
      rfl
    have hR0 : ∀ i : Fin (m + 1),
        TagRel (startAfter c (L i)) count
          ({ page := (startAfter c (L i)).take count,
             key := if count < (startAfter c (L i)).length then
               ((startAfter c (L i)).take count).getLast? else none,
             ptr := 0 } : TagState) 0 := by
      intro i
      refine tagRel_intro 0 (Nat.zero_le _) (Nat.le_refl 0) (Nat.zero_le _)
        (by rw [List.drop_zero]) rfl ?_
      by_cases hmore : 0 + count < (startAfter c (L i)).length
      · rw [if_pos hmore, if_pos (by omega : count < (startAfter c (L i)).length)]
        have := getLast?_take_drop hcount
          (by omega : 0 + count ≤ (startAfter c (L i)).length)
        rw [List.drop_zero] at this
        rw [this]
      · rw [if_neg hmore, if_neg (by omega : ¬ count < (startAfter c (L i)).length)]
    have hGInv0 : GInv (fun j => startAfter c (L j)) (fun _ => 0) [] := by
      refine ⟨List.sorted_nil, ?_, ?_, ?_, ?_⟩
      · intro x hx
        exact absurd hx (List.not_mem_nil x)
      · intro j k hk
        exact absurd hk (Nat.not_lt_zero k)
      · intro x hx
        exact absurd hx (List.not_mem_nil x)
      · intro j
        exact Nat.zero_le _
    have hfuelbound : (∑ j : Fin (m + 1),
        ((startAfter c (L j)).length - (fun _ : Fin (m + 1) => 0) j)) <
        ((List.finRange (m + 1)).map (fun i => (L i).length)).sum + 1 := by
      have h1 : (∑ j : Fin (m + 1),
          ((startAfter c (L j)).length - (fun _ : Fin (m + 1) => 0) j)) =
          ∑ j : Fin (m + 1), (startAfter c (L j)).length :=
        Finset.sum_congr rfl (fun j _ => rfl)
      have h2 : (∑ j : Fin (m + 1), (startAfter c (L j)).length) ≤
          ∑ j : Fin (m + 1), (L j).length :=
        Finset.sum_le_sum (fun j _ => startAfter_length_le c (L j))
      have h3 : (∑ j : Fin (m + 1), (L j).length) =
          ((List.finRange (m + 1)).map (fun i => (L i).length)).sum :=
        Fin.sum_univ_def _
      omega
    obtain ⟨final, p', hml, hI, hlenf, hstop⟩ :=
      mainAbs_correct (Nat.succ_pos m) hSsort
        (((List.finRange (m + 1)).map (fun i => (L i).length)).sum + 1)
        (fun _ => 0) [] hGInv0 (Nat.zero_le _) hfuelbound
    have hsim := mainLoop_sim hL
      (show ∀ j : Fin (m + 1), (fun j => startAfter c (L j)) j =
        startAfter c (L j) from fun j => rfl) hcount
      (((List.finRange (m + 1)).map (fun i => (L i).length)).sum + 1)
      (fun i : Fin (m + 1) =>
        ({ page := (startAfter c (L i)).take count,
           key := if count < (startAfter c (L i)).length then
             ((startAfter c (L i)).take count).getLast? else none,
           ptr := 0 } : TagState))
      (fun _ => 0) [] hR0
    have hfin : final = (interAll (fun j => startAfter c (L j))).take count :=
      ginv_final hSsort hI hlenf hstop
    simp only [listIds]
    rw [if_neg hguard, hst0, hsim, hml, hfin]

theorem interAll_length_le {m : Nat} (S : Fin (m + 1) → List Nat) :
    (interAll S).length ≤ (S ⟨0, Nat.succ_pos m⟩).length :=
  List.length_filter_le _ _

/-- Two strictly ascending lists with the same members are equal. -/
theorem sorted_eq_of_mem_iff {l1 l2 : List Nat}
    (h1 : l1.Sorted (· < ·)) (h2 : l2.Sorted (· < ·))
    (hm : ∀ x, x ∈ l1 ↔ x ∈ l2) : l1 = l2 := by
  haveI : IsAntisymm Nat (· < ·) := ⟨fun a b hab hba => by omega⟩
  refine List.eq_of_perm_of_sorted ?_ h1 h2
  refine List.perm_of_nodup_nodup_toFinset_eq h1.nodup h2.nodup ?_
  ext a
  simp only [List.mem_toFinset]
  exact hm a

/-- Resuming every cursor strictly after `x` filters the intersection down to
its entries strictly greater than `x`, provided `x` itself lies past the old
continuation key. -/
theorem interAll_startAfter {m : Nat} (L : Fin (m + 1) → List Nat)
    {c : Option Nat} {x : Nat} (hL : ∀ j, (L j).Sorted (· < ·))
    (hx : ∀ s, c = some s → s < x) :
    interAll (fun j => startAfter (some x) (L j)) =
      (interAll (fun j => startAfter c (L j))).filter
        (fun y => decide (x < y)) := by
  refine sorted_eq_of_mem_iff
    (interAll_sorted (fun j => startAfter_sorted (hL j) (some x)))
    (List.Sorted.filter _
      (interAll_sorted (fun j => startAfter_sorted (hL j) c))) ?_
  intro y
  rw [mem_interAll, List.mem_filter, mem_interAll]
  constructor
  · intro h
    have h0 := mem_startAfter.mp (h ⟨0, Nat.succ_pos m⟩)
    have hxy : x < y := h0.2 x rfl
    refine ⟨?_, by simpa using hxy⟩
    intro j
    have hj := mem_startAfter.mp (h j)
    refine mem_startAfter.mpr ⟨hj.1, ?_⟩
    intro s hs
    exact lt_trans (hx s hs) hxy
  · rintro ⟨h, hxy⟩
    have hxy' : x < y := by simpa using hxy
    intro j
    exact mem_startAfter.mpr ⟨(mem_startAfter.mp (h j)).1,
      fun s hs => by cases hs; exact hxy'⟩

/-- Pagination completeness at the level of `paginateIds`: with enough rounds,
feeding every continuation key back in reassembles exactly the sorted
intersection of the streams visible after the starting key. -/
theorem paginateIds_spec {m : Nat} (L : Fin (m + 1) → List Nat) (k : Nat)
    (hL : ∀ j, (L j).Sorted (· < ·)) (hk : 1 ≤ k) :
    ∀ (rounds : Nat) (c : Option Nat),
      (interAll (fun j => startAfter c (L j))).length < rounds →
      paginateIds (m + 1) L k rounds c =
        interAll (fun j => startAfter c (L j))
  | 0, _, hlt => absurd hlt (by omega)
  | rounds + 1, c, hlt => by
    simp only [paginateIds]
    rw [listIds_spec L c k hL hk]
    by_cases hempty : ∃ j, startAfter c (L j) = []
    · rw [if_pos hempty]
      obtain ⟨j, hj⟩ := hempty
      have hInil : interAll (fun j => startAfter c (L j)) = [] := by
        rw [List.eq_nil_iff_forall_not_mem]
        intro a ha
        have := mem_interAll.mp ha j
        rw [hj] at this
        exact List.not_mem_nil a this
      rw [hInil]
      rfl
    · rw [if_neg hempty]
      by_cases hfull :
          ((interAll (fun j => startAfter c (L j))).take k).length = k
      · rw [if_pos hfull]
        have hmin : ((interAll (fun j => startAfter c (L j))).take k).length =
            min k (interAll (fun j => startAfter c (L j))).length := by
          simp [List.length_take]
        have hkleI : k ≤ (interAll (fun j => startAfter c (L j))).length := by
          omega
        have hk1 : k - 1 < (interAll (fun j => startAfter c (L j))).length := by
          omega
        have hkey : ((interAll (fun j => startAfter c (L j))).take k)[k - 1]? =
            some ((interAll (fun j => startAfter c (L j)))[k - 1]) := by
          rw [List.getElem?_take, if_pos (by omega), List.getElem?_eq_getElem hk1]
        rw [hkey]
        have hxmem : (interAll (fun j => startAfter c (L j)))[k - 1] ∈
            interAll (fun j => startAfter c (L j)) :=
          (interAll (fun j => startAfter c (L j))).getElem_mem hk1
        have hxcond : ∀ s, c = some s →
            s < (interAll (fun j => startAfter c (L j)))[k - 1] := by
          intro s hs
          have h0 := mem_interAll.mp hxmem ⟨0, Nat.succ_pos m⟩
          exact (mem_startAfter.mp h0).2 s hs
        have hI' : interAll (fun j =>
            startAfter (some ((interAll (fun j => startAfter c (L j)))[k - 1]))
              (L j)) =
            (interAll (fun j => startAfter c (L j))).drop k := by
          rw [interAll_startAfter L hL hxcond]
          have hfd := filter_gt_getElem_eq_drop
            (interAll_sorted (fun j => startAfter_sorted (hL j) c))
            (k - 1) hk1
          rw [hfd]
          congr 1
          omega
        have hrec := paginateIds_spec L k hL hk rounds
          (some ((interAll (fun j => startAfter c (L j)))[k - 1]))
          (by rw [hI']; simp only [List.length_drop]; omega)
        dsimp only
        rw [hrec, hI']
        exact List.take_append_drop k _
      · rw [if_neg hfull]
        have hmin : ((interAll (fun j => startAfter c (L j))).take k).length =
            min k (interAll (fun j => startAfter c (L j))).length := by
          simp [List.length_take]
        dsimp only
        exact List.take_of_length_le (by omega)

/-! ### Claim theorems for the intersection engine -/

/-- C1.  For every family of `n ≥ 1` strictly ascending, duplicate-free
posting lists, `ListService.listIds` with no continuation key and a limit
larger than any posting list (the unbounded case) returns exactly the sorted,
duplicate-free set intersection of the lists: the matched identifiers are
strictly ascending and an identifier is matched precisely when it occurs in
every posting list. -/
theorem listIds_unbounded_eq_intersection {n : Nat} (hn : 0 < n)
    (L : Fin n → List Nat) (count : Nat)
    (hL : ∀ j, (L j).Sorted (· < ·))
    (hcount : (L ⟨0, hn⟩).length < count) :
    ∃ R, listIds n L none count = some R ∧
      (R.1.getD []).Sorted (· < ·) ∧ (R.1.getD []).Nodup ∧
      (∀ x, x ∈ R.1.getD [] ↔ ∀ j, x ∈ L j) := by
  obtain ⟨m, rfl⟩ : ∃ m, n = m + 1 := ⟨n - 1, by omega⟩
  have hS : (fun j : Fin (m + 1) => startAfter none (L j)) = L := rfl
  rw [listIds_spec L none count hL (by omega)]
  by_cases hempty : ∃ j, startAfter none (L j) = []
  · rw [if_pos hempty]
    obtain ⟨j, hj⟩ := hempty
    refine ⟨(none, none), rfl, List.sorted_nil, List.nodup_nil, ?_⟩
    intro x
    simp only [Option.getD_none, List.not_mem_nil, false_iff]
    intro hall
    have := hall j
    rw [show startAfter none (L j) = L j from rfl] at hj
    rw [hj] at this
    exact List.not_mem_nil x this
  · rw [if_neg hempty]
    have hlen : (interAll (fun j => startAfter none (L j))).length ≤
        (L ⟨0, Nat.succ_pos m⟩).length := by
      have := interAll_length_le (fun j : Fin (m + 1) => startAfter none (L j))
      exact this
    have htake : (interAll (fun j : Fin (m + 1) =>
        startAfter none (L j))).take count =
        interAll (fun j : Fin (m + 1) => startAfter none (L j)) :=
      List.take_of_length_le (by omega)
    refine ⟨_, rfl, ?_, ?_, ?_⟩
    · rw [htake]
      dsimp only
      exact interAll_sorted (fun j => startAfter_sorted (hL j) none)
    · rw [htake]
      dsimp only
      exact interAll_nodup (fun j => startAfter_sorted (hL j) none)
    · intro x
      rw [show ((some ((interAll (fun j : Fin (m + 1) =>
          startAfter none (L j))).take count),
          if ((interAll (fun j : Fin (m + 1) =>
            startAfter none (L j))).take count).length = count then
            ((interAll (fun j : Fin (m + 1) =>
              startAfter none (L j))).take count)[count - 1]?
          else none).1.getD []) = (interAll (fun j : Fin (m + 1) =>
          startAfter none (L j))).take count from rfl, htake]
      exact mem_interAll

/-- Witness for C1 at a concrete instance. -/
theorem listIds_unbounded_eq_intersection_witness :
    ∃ R, listIds 2 ![[1, 2, 5], [2, 3, 5]] none 4 = some R ∧
      (R.1.getD []).Sorted (· < ·) ∧ (R.1.getD []).Nodup ∧
      (∀ x, x ∈ R.1.getD [] ↔ ∀ j, x ∈ ![[1, 2, 5], [2, 3, 5]] j) :=
  listIds_unbounded_eq_intersection (by decide) ![[1, 2, 5], [2, 3, 5]] 4
    (by decide) (by decide)

/-- C2.  Pagination completeness: for every limit `k ≥ 1` and strictly
ascending, duplicate-free posting lists, repeatedly calling `listIds` with
limit `k` and feeding each returned continuation key back as the next call's
pagination key yields, when the matched pages are concatenated
(`paginateIds`), exactly the matched identifiers of the single unbounded
intersection run. -/
theorem listIds_pagination_complete {n : Nat} (hn : 0 < n)
    (L : Fin n → List Nat) (k countU : Nat)
    (hL : ∀ j, (L j).Sorted (· < ·)) (hk : 1 ≤ k)
    (hcountU : (L ⟨0, hn⟩).length < countU) :
    ∃ RU, listIds n L none countU = some RU ∧
      paginateIds n L k ((L ⟨0, hn⟩).length + 1) none = RU.1.getD [] := by
  obtain ⟨m, rfl⟩ : ∃ m, n = m + 1 := ⟨n - 1, by omega⟩
  have hfin : (⟨0, Nat.succ_pos m⟩ : Fin (m + 1)) = ⟨0, hn⟩ := rfl
  have hIlen : (interAll (fun j : Fin (m + 1) =>
      startAfter none (L j))).length ≤ (L ⟨0, hn⟩).length := by
    have := interAll_length_le (fun j : Fin (m + 1) => startAfter none (L j))
    rw [hfin] at this
    exact this
  have hpag := paginateIds_spec L k hL hk ((L ⟨0, hn⟩).length + 1) none
    (by omega)
  rw [listIds_spec L none countU hL (by omega)]
  by_cases hempty : ∃ j, startAfter none (L j) = []
  · rw [if_pos hempty]
    refine ⟨(none, none), rfl, ?_⟩
    rw [hpag]
    obtain ⟨j, hj⟩ := hempty
    show (interAll fun j : Fin (m + 1) => startAfter none (L j)) = []
    rw [List.eq_nil_iff_forall_not_mem]
    intro a ha
    have := mem_interAll.mp ha j
    rw [hj] at this
    exact List.not_mem_nil a this
  · rw [if_neg hempty]
    refine ⟨_, rfl, ?_⟩
    rw [hpag]
    show _ = (interAll (fun j : Fin (m + 1) =>
      startAfter none (L j))).take countU
    rw [List.take_of_length_le (by omega)]

/-- Witness for C2 at a concrete instance (limit 1 against a 3-element
posting list). -/
theorem listIds_pagination_complete_witness :
    ∃ RU, listIds 2 ![[1, 3, 5], [1, 5, 9]] none 4 = some RU ∧
      paginateIds 2 ![[1, 3, 5], [1, 5, 9]] 1 4 none = RU.1.getD [] :=
  by
    have h := listIds_pagination_complete (show (0 : Nat) < 2 from by decide)
      ![[1, 3, 5], [1, 5, 9]] 1 4 (by decide) (by decide) (by decide)
    simpa using h

/-- C5.  The continuation key returned by `listIds` is the last (`count`-th)
matched identifier when the matched page is full, and absent when the run
stopped early (some posting list exhausted before `count` matches were
found). -/
theorem listIds_continuation_key {n : Nat} (hn : 0 < n)
    (L : Fin n → List Nat) (c : Option Nat) (count : Nat)
    (hL : ∀ j, (L j).Sorted (· < ·)) (hcount : 1 ≤ count) :
    ∃ R, listIds n L c count = some R ∧
      R.2 = (if (R.1.getD []).length = count then
        (R.1.getD [])[count - 1]? else none) := by
  obtain ⟨m, rfl⟩ : ∃ m, n = m + 1 := ⟨n - 1, by omega⟩
  rw [listIds_spec L c count hL hcount]
  by_cases hempty : ∃ j, startAfter c (L j) = []
  · rw [if_pos hempty]
    refine ⟨(none, none), rfl, ?_⟩
    simp only [Option.getD_none, List.length_nil]
    rw [if_neg (by omega)]
  · rw [if_neg hempty]
    exact ⟨_, rfl, rfl⟩

/-- Witness for C5 at a concrete instance. -/
theorem listIds_continuation_key_witness :
    ∃ R, listIds 1 ![[1, 2, 3]] none 2 = some R ∧
      R.2 = (if (R.1.getD []).length = 2 then
        (R.1.getD [])[2 - 1]? else none) :=
  listIds_continuation_key (by decide) ![[1, 2, 3]] none 2 (by decide)
    (by decide)

/-- C6.  If any tag's first fetched page of identifiers is empty, `listIds`
returns `[undefined, undefined]` — no matched identifiers and no continuation
key — regardless of the other tags' posting lists. -/
theorem listIds_short_circuit {n : Nat} (L : Fin n → List Nat)
    (c : Option Nat) (count : Nat)
    (h : ∃ i, (listIdsFromDbUsingTags (L i) c count).1 = none) :
    listIds n L c count = some (none, none) := by
  obtain ⟨i, hi⟩ := h
  have hguard : (List.finRange n).any
      (fun i => (((listIdsFromDbUsingTags (L i) c count).1).getD
        []).isEmpty) = true := by
    rw [List.any_eq_true]
    refine ⟨i, List.mem_finRange i, ?_⟩
    rw [hi]
    rfl
  simp only [listIds]
  rw [if_pos hguard]

/-- Witness for C6 at a concrete instance: the first tag's posting list is
empty while the second tag's is not. -/
theorem listIds_short_circuit_witness :
    listIds 2 ![[], [7, 8, 9]] none 20 = some (none, none) :=
  listIds_short_circuit ![[], [7, 8, 9]] none 20 ⟨0, by decide⟩

/-- C8.  Over strictly ascending, duplicate-free posting lists the matched
identifier list produced by `listIds` is strictly ascending. -/
theorem listIds_matched_sorted {n : Nat} (hn : 0 < n)
    (L : Fin n → List Nat) (c : Option Nat) (count : Nat)
    (hL : ∀ j, (L j).Sorted (· < ·)) (hcount : 1 ≤ count) :
    ∃ R, listIds n L c count = some R ∧
      (R.1.getD []).Sorted (· < ·) := by
  obtain ⟨m, rfl⟩ : ∃ m, n = m + 1 := ⟨n - 1, by omega⟩
  rw [listIds_spec L c count hL hcount]
  by_cases hempty : ∃ j, startAfter c (L j) = []
  · rw [if_pos hempty]
    exact ⟨(none, none), rfl, List.sorted_nil⟩
  · rw [if_neg hempty]
    refine ⟨_, rfl, ?_⟩
    show ((interAll (fun j : Fin (m + 1) =>
      startAfter c (L j))).take count).Sorted (· < ·)
    exact List.Pairwise.sublist (List.take_sublist _ _)
      (interAll_sorted (fun j => startAfter_sorted (hL j) c))

/-- Witness for C8 at a concrete instance. -/
theorem listIds_matched_sorted_witness :
    ∃ R, listIds 2 ![[1, 3, 5], [1, 5, 7]] none 2 = some R ∧
      (R.1.getD []).Sorted (· < ·) :=
  listIds_matched_sorted (by decide) ![[1, 3, 5], [1, 5, 7]] none 2
    (by decide) (by decide)

/-- C9.  The spec's concrete scenario: posting lists `[001,003,005,009]` and
`[001,005,009,013]` (identifiers abstracted as the naturals `1,3,5,9` and
`1,5,9,13`), no continuation key, limit 20: the matched identifiers are
exactly `[001,005,009]` and no continuation key is returned. -/
theorem listIds_spec_scenario :
    listIds 2 ![[1, 3, 5, 9], [1, 5, 9, 13]] none 20 =
      some (some [1, 5, 9], none) := by
  decide

end ListService

namespace DynamoDbUtils

/-! ### Batch executor theorems -/

/-- On a store that reports the same 2 unprocessed items on every call,
`batchWriteAll` makes one store call per recursion level and recurses forever:
`attempt++` passes the pre-increment value, so every recursive call starts at
`attempt = 1` and the `attempt > MAX_RETRIES` guard can never fire. -/
theorem batchWriteAll_diverges : ∀ (fuel calls : Nat),
    batchWriteAll (fun _ _ => some [("t", [1, 2])]) fuel
      ([("t", [1, 2])] : ReqMap Nat) 1 calls = BWOutcome.fuelOut (calls + fuel)
  | 0, calls => by simp [batchWriteAll]
  | fuel + 1, calls => by
    have hIH := batchWriteAll_diverges fuel (calls + 1)
    have harith : calls + 1 + fuel = calls + (fuel + 1) := by omega
    simp only [batchWriteAll]
    rw [if_neg (by decide)]
    have hchunks : splitBatchWriteIntoChunks
        (⟨[("t", [1, 2])]⟩ : BatchInput Nat) none =
        [(⟨[("t", [1, 2])]⟩ : BatchInput Nat)] := by decide
    rw [hchunks]
    simp only [bwChunks]
    rw [if_pos (by decide), hIH]
    rw [harith]

/-- The same divergence on the read path: `batchGetAll` shares the
`attempt++` defect. -/
theorem batchGetAll_diverges : ∀ (fuel calls : Nat),
    batchGetAll
      (fun _ _ => (([] : List (String × List Nat)), some [("t", [1, 2])]))
      fuel ([("t", [1, 2])] : ReqMap Nat) 1 calls =
      BGOutcome.fuelOut (calls + fuel)
  | 0, calls => by simp [batchGetAll]
  | fuel + 1, calls => by
    have hIH := batchGetAll_diverges fuel (calls + 1)
    have harith : calls + 1 + fuel = calls + (fuel + 1) := by omega
    simp only [batchGetAll]
    rw [if_neg (by decide)]
    have hchunks : splitBatchGetIntoChunks
        (⟨[("t", [1, 2])]⟩ : BatchInput Nat) none =
        [(⟨[("t", [1, 2])]⟩ : BatchInput Nat)] := by decide
    rw [hchunks]
    simp only [bgChunks]
    rw [if_pos (by decide), hIH]
    rw [harith]

/-- The chunk loop can only return a value carrying `UnprocessedItems` when
the recursive retry itself did. -/
theorem bwChunks_never_output {α : Type}
    (store : Nat → BatchInput α → Option (ReqMap α))
    (retry : ReqMap α → Nat → Nat → BWOutcome α)
    (hretry : ∀ m a c2 u c', retry m a c2 ≠ .returned (.output u) c') :
    ∀ (chunks : List (BatchInput α)) (attempt calls : Nat) (u : ReqMap α)
      (c : Nat),
      bwChunks store retry chunks attempt calls ≠ .returned (.output u) c
  | [], _, calls, u, c => by simp [bwChunks]
  | chunk :: rest, attempt, calls, u, c => by
    intro hcon
    simp only [bwChunks] at hcon
    rcases hs : store calls chunk with _ | m <;> rw [hs] at hcon <;>
      dsimp only at hcon
    · exact bwChunks_never_output store retry hretry rest attempt (calls + 1)
        u c hcon
    · by_cases hm : m.length > 0
      · rw [if_pos hm] at hcon
        rcases hr : retry m attempt (calls + 1) with c2 | c2 | ⟨ret, c2⟩ <;>
          rw [hr] at hcon
        · simp at hcon
        · simp at hcon
        · rcases ret with _ | m2 | u2
          · simp at hcon
          · dsimp only at hcon
            exact bwChunks_never_output store retry hretry rest (attempt + 1)
              c2 u c hcon
          · exact hretry m attempt (calls + 1) u2 c2 hr
      · rw [if_neg hm] at hcon
        exact bwChunks_never_output store retry hretry rest attempt (calls + 1)
          u c hcon

/-- `batchWriteAll` can never return a `BatchWriteItemOutput` that carries
`UnprocessedItems`: the `attempt > MAX_RETRIES` base case returns the raw
request map (whose `UnprocessedItems` property is `undefined`), so the
join-and-return branch is unreachable at every depth. -/
theorem batchWriteAll_never_output {α : Type}
    (store : Nat → BatchInput α → Option (ReqMap α)) :
    ∀ (fuel : Nat) (params : ReqMap α) (attempt calls : Nat) (u : ReqMap α)
      (c : Nat),
      batchWriteAll store fuel params attempt calls ≠ .returned (.output u) c
  | 0, params, attempt, calls, u, c => by simp [batchWriteAll]
  | fuel + 1, params, attempt, calls, u, c => by
    simp only [batchWriteAll]
    by_cases ha : attempt > MAX_RETRIES
    · rw [if_pos ha]
      simp
    · rw [if_neg ha]
      exact bwChunks_never_output store (batchWriteAll store fuel)
        (fun m a c2 u2 c' => batchWriteAll_never_output store fuel m a c2 u2 c')
        _ attempt calls u c

/-- On a store that never reports unprocessed items the chunk loop succeeds,
returning `undefined` after one call per chunk. -/
theorem bwChunks_all_ok {α : Type}
    (retry : ReqMap α → Nat → Nat → BWOutcome α) :
    ∀ (chunks : List (BatchInput α)) (attempt calls : Nat),
      bwChunks (fun _ _ => none) retry chunks attempt calls =
        .returned .undef (calls + chunks.length)
  | [], _, calls => by simp [bwChunks]
  | chunk :: rest, attempt, calls => by
    simp only [bwChunks]
    rw [bwChunks_all_ok retry rest attempt (calls + 1)]
    congr 1
    simp only [List.length_cons]
    omega

/-! ### Claim theorems for the batch executor -/

/-- C3 (code evaluation at the failing input).  Against a store whose every
bulk call reports 2 unprocessed items, the batch executor does **not** stop
after `1 + MAX_RETRIES = 4` store calls: because line 39/70 pass `attempt++`
(the old value) into the recursion, every recursion level runs at
`attempt = 1`, so for every fuel bound the run makes exactly `fuel` store
calls and is still running — it never terminates and never returns the
2-item residue. -/
theorem batchRetry_attempt_counter_stuck :
    (∀ fuel calls : Nat,
      batchWriteAll (fun _ _ => some [("t", [1, 2])]) fuel
        ([("t", [1, 2])] : ReqMap Nat) 1 calls =
        BWOutcome.fuelOut (calls + fuel)) ∧
    (∀ fuel calls : Nat,
      batchGetAll
        (fun _ _ => (([] : List (String × List Nat)), some [("t", [1, 2])]))
        fuel ([("t", [1, 2])] : ReqMap Nat) 1 calls =
        BGOutcome.fuelOut (calls + fuel)) :=
  ⟨batchWriteAll_diverges, batchGetAll_diverges⟩

set_option maxRecDepth 100000 in
/-- C7.  The chunk splitters respect the kind-specific ceilings: 101 get-keys
split into exactly the two chunks `[0..99]` and `[100]` (read ceiling 100),
30 put-items into exactly `[0..24]` and `[25..29]` (write ceiling 25), and
concatenating the chunks in order reassembles the original key/item sequence
exactly. -/
theorem splitBatch_chunking :
    splitBatchGetIntoChunks (⟨[("t", List.range 101)]⟩ : BatchInput Nat)
        none = [⟨[("t", List.range 100)]⟩, ⟨[("t", [100])]⟩] ∧
    splitBatchWriteIntoChunks (⟨[("t", List.range 30)]⟩ : BatchInput Nat)
        none = [⟨[("t", List.range 25)]⟩, ⟨[("t", [25, 26, 27, 28, 29])]⟩] ∧
    List.range 100 ++ [100] = List.range 101 ∧
    List.range 25 ++ [25, 26, 27, 28, 29] = List.range 30 := by
  refine ⟨?_, ?_, ?_, ?_⟩
  · decide
  · decide
  · decide
  · decide

end DynamoDbUtils

namespace CreateService

/-- A store that accepts every write reports no unprocessed items, so
`saveToDb` succeeds. -/
theorem saveToDb_all_ok (fuel : Nat) (hfuel : 1 ≤ fuel) (tableName : String)
    (item : TaskItem) :
    saveToDb (fun _ _ => none) fuel tableName item = .ok := by
  obtain ⟨fuel', rfl⟩ : ∃ f, fuel = f + 1 := ⟨fuel - 1, by omega⟩
  unfold saveToDb
  simp only [DynamoDbUtils.batchWriteAll]
  rw [if_neg (by decide)]
  rw [DynamoDbUtils.bwChunks_all_ok]
  rfl

/-! ### Claim theorems for the create path -/

/-- C4 (code evaluation at the failing input).  The write path cannot raise
the `SAVE_FAILED` error at all — `batchWriteAll` never returns a value with
an `UnprocessedItems` property, so `hasUnprocessedItems` is always false —
and on a store that rejects the first call but accepts everything on the
retry (within the retry budget, so the claim demands success) the code
instead crashes with a `TypeError`, because line 40 reads `.UnprocessedItems`
off the `undefined` returned by the successful retry. -/
theorem saveToDb_error_mismatch :
    (∀ (store : Nat → DynamoDbUtils.BatchInput DbItem →
        Option (DynamoDbUtils.ReqMap DbItem))
       (fuel : Nat) (tableName : String) (item : TaskItem),
       saveToDb store fuel tableName item ≠ SaveOutcome.saveFailed) ∧
    process "a1b2c3d4e"
      (fun k _ => if k = 0 then
        some [("tasks", [({ pk := "p", sk := "s", siKey1 := none, name := none, description := none, tags := none } : DbItem)])]
        else none)
      5 "tasks" { id := none, name := "x", description := "d", tags := none } =
      ProcessResult.typeErr := by
  constructor
  · intro store fuel tableName item hcon
    unfold saveToDb at hcon
    rcases hb : DynamoDbUtils.batchWriteAll store fuel
        (saveToDbParams tableName item).RequestItems 1 0 with c | c | ⟨r, c⟩ <;>
      rw [hb] at hcon <;> dsimp only at hcon
    · simp at hcon
    · simp at hcon
    · rcases r with _ | m | u
      · simp [DynamoDbUtils.hasUnprocessedItems] at hcon
      · simp [DynamoDbUtils.hasUnprocessedItems] at hcon
      · exact DynamoDbUtils.batchWriteAll_never_output store fuel
          (saveToDbParams tableName item).RequestItems 1 0 u c hb
  · rfl

/-- C10.  `CreateService.process` discards any caller-supplied id, assigns
the freshly generated identifier (a 9-character lowercase-alphanumeric string
under the configured `ShortUniqueId` contract) before saving, and every key
it writes — the task item's `task#<id>` key pair and one `tag#<name>` /
`<value>#task#<id>` pair per tag — carries the generated id. -/
theorem process_assigns_generated_id (genId : String)
    (hgen : validGeneratedId genId) (fuel : Nat) (hfuel : 1 ≤ fuel)
    (tableName : String) (item : TaskItem) (hname : item.name ≠ "") :
    ∃ saved,
      process genId (fun _ _ => none) fuel tableName item = .success saved ∧
      saved.id = some genId ∧ saved.name = item.name ∧
      saved.description = item.description ∧ saved.tags = item.tags ∧
      genId.length = 9 ∧
      (∀ ch ∈ genId.toList, ch ∈ alphanumLowerChars) ∧
      ∀ req ∈ (saveToDbParams tableName saved).RequestItems.flatMap
          (fun kv => kv.2),
        (req.pk = "task#" ++ genId ∧ req.sk = "task#" ++ genId) ∨
        (∃ tn tv, (tn, tv) ∈ item.tags.getD [] ∧
          req.pk = "tag#" ++ tn ∧ req.sk = tv ++ "#task#" ++ genId) := by
  refine ⟨{ item with id := some genId }, ?_, rfl, rfl, rfl, rfl, hgen.1,
    hgen.2, ?_⟩
  · simp only [process]
    rw [if_neg hname, saveToDb_all_ok fuel hfuel]
  · intro req hreq
    simp only [saveToDbParams, List.flatMap_cons, List.flatMap_nil,
      List.append_nil, List.mem_cons] at hreq
    rcases hreq with hreq | hreq
    · subst hreq
      left
      exact ⟨rfl, rfl⟩
    · rw [List.mem_map] at hreq
      obtain ⟨tv, htv, hreqeq⟩ := hreq
      right
      refine ⟨tv.1, tv.2, htv, ?_, ?_⟩
      · rw [← hreqeq]
      · rw [← hreqeq]
        rfl

/-- Witness for C10 at a concrete instance: the caller supplies an id of its
own, which is discarded in favour of the generated one. -/
theorem process_assigns_generated_id_witness :
    ∃ saved,
      process "a1b2c3d4e" (fun _ _ => none) 1 "tasks"
        { id := some "caller-id", name := "my task", description := "d",
          tags := some [("project", "x")] } = .success saved ∧
      saved.id = some "a1b2c3d4e" ∧ saved.name = "my task" ∧
      saved.description = "d" ∧ saved.tags = some [("project", "x")] ∧
      String.length "a1b2c3d4e" = 9 ∧
      (∀ ch ∈ String.toList "a1b2c3d4e", ch ∈ alphanumLowerChars) ∧
      ∀ req ∈ (saveToDbParams "tasks" saved).RequestItems.flatMap
          (fun kv => kv.2),
        (req.pk = "task#" ++ "a1b2c3d4e" ∧ req.sk = "task#" ++ "a1b2c3d4e") ∨
        (∃ tn tv, (tn, tv) ∈ (some [("project", "x")] :
            Option (List (String × String))).getD [] ∧
          req.pk = "tag#" ++ tn ∧ req.sk = tv ++ "#task#" ++ "a1b2c3d4e") :=
  process_assigns_generated_id "a1b2c3d4e" (by decide) 1 (by decide) "tasks"
    { id := some "caller-id", name := "my task", description := "d",
      tags := some [("project", "x")] } (by decide)

end CreateService

end ItemTagging
